import Mathlib

/-!
Verification of the graph library: arena-indexed incidence-list storage
(slab-backed vertex/edge arenas with intrusive incidence chains), the
path-reconstruction helper, and the BFS / DFS / A* traversal algorithms
with their visitor event protocol.

Machine integers (usize descriptors) are modelled as Nat: descriptor
values in the source are arena slot indices and never overflow in any
behaviour considered here.  Fallible operations return Option, and an
operation that can panic (or diverge) is modelled with an outer Option
whose none value stands for the panic/divergence.  Loops that the source
writes as unbounded while-loops are modelled with explicit fuel; theorems
about them either supply provably adequate fuel or quantify over it.
-/

namespace GraphRs

/-! ## Association-list helpers

FnvHashMap values keyed by descriptors are modelled as association lists
with unique keys; lookup returns the first binding. -/

def lookupKey {α : Type} (ps : List (Nat × α)) (k : Nat) : Option α :=
  match ps with
  | [] => none
  | (a, b) :: rest => if a = k then some b else lookupKey rest k

/-- Replace the value bound to an existing key (HashMap occupied-entry insert). -/
def setKey {α : Type} (ps : List (Nat × α)) (k : Nat) (v : α) : List (Nat × α) :=
  ps.map (fun kv => if kv.1 = k then (k, v) else kv)

def assocKeys {α : Type} (ps : List (Nat × α)) : List Nat := ps.map Prod.fst

/-! ## Sorting helpers

Vec::sort followed by Vec::dedup, as used by adjacent_vertices: a sort
into non-decreasing order, then removal of consecutive duplicates. -/

def insertSorted (x : Nat) : List Nat → List Nat
  | [] => [x]
  | y :: ys => if x ≤ y then x :: y :: ys else y :: insertSorted x ys

def sortList (l : List Nat) : List Nat := l.foldr insertSorted []

def dedupSorted : List Nat → List Nat
  | [] => []
  | [x] => [x]
  | x :: y :: ys => if x = y then dedupSorted (y :: ys) else x :: dedupSorted (y :: ys)

def sortDedup (l : List Nat) : List Nat := dedupSorted (sortList l)

/-! ## Slab arenas

The slab crate's Slab is modelled as a slot array: a list of optional
records.  An occupied slot holds some record; get on a vacant or
out-of-range key yields none.  vacant_entry().key() is modelled as the
smallest vacant index (the slab free list differs only in which vacant
slot it hands out, which no claim here depends on). -/

structure Slab (α : Type) where
  data : List (Option α)

def Slab.get {α : Type} (s : Slab α) (k : Nat) : Option α :=
  s.data.getD k none

def Slab.contains {α : Type} (s : Slab α) (k : Nat) : Bool :=
  (s.get k).isSome

def Slab.keys {α : Type} (s : Slab α) : List Nat :=
  (List.range s.data.length).filter (fun k => s.contains k)

def Slab.len {α : Type} (s : Slab α) : Nat := s.keys.length

def Slab.vacantKey {α : Type} (s : Slab α) : Nat :=
  match (List.range s.data.length).find? (fun k => !s.contains k) with
  | some k => k
  | none => s.data.length

def Slab.setAt {α : Type} (s : Slab α) (k : Nat) (a : α) : Slab α :=
  ⟨s.data.set k (some a)⟩

def Slab.insertAt {α : Type} (s : Slab α) (k : Nat) (a : α) : Slab α :=
  if k < s.data.length then ⟨s.data.set k (some a)⟩ else ⟨s.data ++ [some a]⟩

def Slab.removeAt {α : Type} (s : Slab α) (k : Nat) : Slab α :=
  ⟨s.data.set k none⟩

/-! ## Incidence-list storage records

Vertex holds (incoming-chain head, property, outgoing-chain head); Edge
holds (source, property, target) plus the two next links (next edge in
the target's incoming chain, next edge in the source's outgoing chain),
exactly as in the source's tuple layout. -/

structure Vertex (VP : Type) where
  inHead : Option Nat
  prop : VP
  outHead : Option Nat

structure Edge (EP : Type) where
  src : Option Nat
  prop : EP
  tgt : Option Nat
  nextIn : Option Nat
  nextOut : Option Nat

structure IncidenceList (VP EP : Type) where
  vertices : Slab (Vertex VP)
  edges : Slab (Edge EP)

inductive EdgeKind
  | outgoing
  | incoming

inductive VertexKind
  | predecessor
  | successor

def Edge.nextOf {EP : Type} (e : Edge EP) : EdgeKind → Option Nat
  | EdgeKind.outgoing => e.nextOut
  | EdgeKind.incoming => e.nextIn

namespace IncidenceList

variable {VP EP : Type}

def vertex_property (g : IncidenceList VP EP) (d : Nat) : Option VP :=
  (g.vertices.get d).map Vertex.prop

def edge_property (g : IncidenceList VP EP) (d : Nat) : Option EP :=
  (g.edges.get d).map Edge.prop

/-- The IncidentEdges iterator: walk a next-link chain, stopping when the
link is absent or the linked slot is vacant.  A cyclic chain makes the
source iterator run forever; the fuel cutoff stands in for that
divergence and is never reached on well-formed chains. -/
def incidentWalk (s : Slab (Edge EP)) (kind : EdgeKind) : Nat → Option Nat → List Nat
  | _, none => []
  | 0, some _ => []
  | fuel + 1, some ed =>
    match s.get ed with
    | none => []
    | some e => ed :: incidentWalk s kind fuel (e.nextOf kind)

/-- out_edges indexes the vertex arena (self.vertices[d]), which panics on
a vacant slot; the outer none models that panic. -/
def out_edges (g : IncidenceList VP EP) (d : Nat) : Option (List Nat) :=
  (g.vertices.get d).map (fun v =>
    incidentWalk g.edges EdgeKind.outgoing g.edges.data.length v.outHead)

/-- in_edges indexes the vertex arena like out_edges; none models the panic. -/
def in_edges (g : IncidenceList VP EP) (d : Nat) : Option (List Nat) :=
  (g.vertices.get d).map (fun v =>
    incidentWalk g.edges EdgeKind.incoming g.edges.data.length v.inHead)

/-- The IncidentVertices iterator: like incidentWalk but yields the
endpoint on the far side of each chain edge; it stops early if an edge
record lacks that endpoint (the Rust iterator returns None then). -/
def adjacentWalk (s : Slab (Edge EP)) (kind : VertexKind) : Nat → Option Nat → List Nat
  | _, none => []
  | 0, some _ => []
  | fuel + 1, some ed =>
    match s.get ed with
    | none => []
    | some e =>
      match kind with
      | VertexKind.successor =>
        match e.tgt with
        | none => []
        | some t => t :: adjacentWalk s kind fuel e.nextOut
      | VertexKind.predecessor =>
        match e.src with
        | none => []
        | some sv => sv :: adjacentWalk s kind fuel e.nextIn

/-- adjacent_vertices indexes the vertex arena (self.vertices[d]); the
outer none models that panic on a vacant slot.  For directed storage the
successors are collected, otherwise successors chained with predecessors;
the collected Vec is sorted then dedup-ed. -/
def adjacent_vertices (g : IncidenceList VP EP) (directed : Bool) (d : Nat) :
    Option (List Nat) :=
  (g.vertices.get d).map (fun v =>
    let succ := adjacentWalk g.edges VertexKind.successor g.edges.data.length v.outHead
    let pred := adjacentWalk g.edges VertexKind.predecessor g.edges.data.length v.inHead
    sortDedup (if directed then succ else succ ++ pred))

/-- AdjacencyMatrixGraph::edge — linear scan of the edge arena in key
order, first match wins; undirected storage also matches the endpoints
swapped. -/
def edge (g : IncidenceList VP EP) (directed : Bool) (a b : Nat) : Option Nat :=
  (List.range g.edges.data.length).find? (fun k =>
    match g.edges.get k with
    | none => false
    | some e =>
      (e.src == some a && e.tgt == some b) ||
        (!directed && e.src == some b && e.tgt == some a))

def add_vertex (g : IncidenceList VP EP) (p : VP) : Nat × IncidenceList VP EP :=
  let k := g.vertices.vacantKey
  (k, { g with vertices := g.vertices.insertAt k ⟨none, p, none⟩ })

/-- MutableGraph::add_edge.  The source's outgoing head is rewritten to
the fresh key before the target is looked up, so a live source with a
dead target leaves the source vertex modified even though none is
returned. -/
def add_edge (g : IncidenceList VP EP) (source target : Nat) (p : EP) :
    Option Nat × IncidenceList VP EP :=
  let key := g.edges.vacantKey
  match g.vertices.get source with
  | none => (none, g)
  | some sv =>
    let nextOe := sv.outHead
    let g1 : IncidenceList VP EP :=
      { g with vertices := g.vertices.setAt source { sv with outHead := some key } }
    match g1.vertices.get target with
    | none => (none, g1)
    | some tv =>
      let nextIe := tv.inHead
      let g2 : IncidenceList VP EP :=
        { g1 with vertices := g1.vertices.setAt target { tv with inHead := some key } }
      (some key,
        { g2 with edges := g2.edges.insertAt key ⟨some source, p, some target, nextIe, nextOe⟩ })

/-- The source-side block of remove_edge (s.and_then in the source): if
the removed edge's source is present, its vertex record must be live
(unwrap — none models the panic); the outgoing head is rewritten only
when it is the removed edge itself.  Faithfully kept from the source:
when a head exists but is another edge, the and_then closure still
yields Some, so the or_else chain-scan never runs and no predecessor
link is retargeted; with an absent head the scan walks an empty chain
and also does nothing. -/
def spliceSrc (g : IncidenceList VP EP) (d : Nat) (e : Edge EP) :
    Option (IncidenceList VP EP) :=
  match e.src with
  | none => some g
  | some vd =>
    match g.vertices.get vd with
    | none => none
    | some v =>
      match v.outHead with
      | some x =>
        if x = d then
          some { g with vertices := g.vertices.setAt vd { v with outHead := e.nextOut } }
        else some g
      | none => some g

/-- The target-side block of remove_edge (t.and_then in the source),
mirroring spliceSrc on the incoming chain. -/
def spliceTgt (g : IncidenceList VP EP) (d : Nat) (e : Edge EP) :
    Option (IncidenceList VP EP) :=
  match e.tgt with
  | none => some g
  | some vd =>
    match g.vertices.get vd with
    | none => none
    | some v =>
      match v.inHead with
      | some x =>
        if x = d then
          some { g with vertices := g.vertices.setAt vd { v with inHead := e.nextIn } }
        else some g
      | none => some g

/-- MutableGraph::remove_edge.  The outer none models the unwrap panic on
a missing endpoint vertex. -/
def remove_edge (g : IncidenceList VP EP) (d : Nat) :
    Option (Option EP × IncidenceList VP EP) :=
  match g.edges.get d with
  | none => some (none, g)
  | some e =>
    match spliceSrc g d e with
    | none => none
    | some g1 =>
      match spliceTgt g1 d e with
      | none => none
      | some g2 => some (some e.prop, { g2 with edges := g2.edges.removeAt d })

/-- The incident-edge removal loop of remove_vertex: the collected
descriptors are removed one by one; a removal that returns None makes
remove_vertex return None immediately (with the state mutated so far).
The outer none models a panic inside remove_edge. -/
def removeEdgesLoop (eds : List Nat) (g : IncidenceList VP EP) :
    Option (Bool × IncidenceList VP EP) :=
  match eds with
  | [] => some (true, g)
  | ed :: rest =>
    match remove_edge g ed with
    | none => none
    | some (none, g1) => some (false, g1)
    | some (some _, g1) => removeEdgesLoop rest g1

/-- MutableGraph::remove_vertex: collect the outgoing and incoming chains
up front, remove each collected edge (early None on failure), then remove
the vertex record and return its property. -/
def remove_vertex (g : IncidenceList VP EP) (d : Nat) :
    Option (Option VP × IncidenceList VP EP) :=
  if g.vertices.contains d then
    match removeEdgesLoop ((out_edges g d).getD [] ++ (in_edges g d).getD []) g with
    | none => none
    | some (false, g1) => some (none, g1)
    | some (true, g1) =>
      match g1.vertices.get d with
      | none => none
      | some v => some (some v.prop, { g1 with vertices := g1.vertices.removeAt d })
  else some (none, g)

end IncidenceList

/-! ## Path reconstruction -/

/-- path::reverse_path — start from the goal, repeatedly push the parent
of the last vertex, and reverse at the end.  The source loop is
unbounded; fuel bounds the modelled iteration count and none stands for
the divergence a malformed parent map causes. -/
def reversePathLoop (parents : List (Nat × Nat)) : Nat → List Nat → Option (List Nat)
  | 0, path =>
    match lookupKey parents (path.getLastD 0) with
    | none => some path
    | some _ => none
  | fuel + 1, path =>
    match lookupKey parents (path.getLastD 0) with
    | none => some path
    | some p => reversePathLoop parents fuel (path ++ [p])

def reverse_path (parents : List (Nat × Nat)) (goal : Nat) (fuel : Nat) :
    Option (List Nat) :=
  (reversePathLoop parents fuel [goal]).map List.reverse

/-! ## Visitor event protocol -/

inductive Event
  | initializeVertex (v : Nat)
  | startVertex (v : Nat)
  | discoverVertex (v : Nat)
  | finishVertex (v : Nat)
  | examineVertex (v : Nat)
  | examineEdge (e : Nat)
  | treeEdge (e : Nat)
  | nonTreeEdge (e : Nat)
  | grayTarget (e : Nat)
  | blackTarget (e : Nat)
  | forwardOrCrossEdge (e : Nat)
  | backEdge (e : Nat)
  | finishEdge (e : Nat)
  | edgeRelaxed (e : Nat)
  | edgeNotRelaxed (e : Nat)
  | edgeMinimized (e : Nat)
  | edgeNotMinimized (e : Nat)
deriving DecidableEq

/-- The events that mention an edge: examined, tree/non-tree, relaxed or
not relaxed.  None of these may appear when the start satisfies the goal. -/
def Event.isEdgeEvent : Event → Bool
  | Event.examineEdge _ => true
  | Event.treeEdge _ => true
  | Event.nonTreeEdge _ => true
  | Event.edgeRelaxed _ => true
  | Event.edgeNotRelaxed _ => true
  | _ => false

/-! ## The abstract graph view used by the algorithms

The searches touch a graph only through vertices(), adjacent_vertices()
and edge(,).unwrap(); those three capabilities form the interface below.
edgeOf models edge(v,w).unwrap(): it is meaningful only for w in adj v,
where the lookup in any storage instance succeeds. -/

structure AGraph where
  verts : List Nat
  adj : Nat → List Nat
  edgeOf : Nat → Nat → Nat

/-- Vertices listed by adjacency stay inside the vertex list. -/
def AGraph.Closed (g : AGraph) : Prop :=
  ∀ v ∈ g.verts, ∀ w ∈ g.adj v, w ∈ g.verts

/-- The abstract view of an incidence-list storage: its live vertex keys,
its adjacency enumeration and its endpoint edge lookup. -/
def aGraphOf {VP EP : Type} (il : IncidenceList VP EP) (directed : Bool) : AGraph where
  verts := il.vertices.keys
  adj := fun v => (il.adjacent_vertices directed v).getD []
  edgeOf := fun a b => (il.edge directed a b).getD 0

/-! ## BFS and DFS -/

/-- The only difference between Bfs::run and Dfs::run: a VecDeque popped
at the front versus a Vec popped at the back (both push at the back). -/
inductive Discipline
  | fifo
  | lifo

structure SearchState where
  fringe : List Nat
  parents : List (Nat × Nat)
  events : List Event

def popFringe : Discipline → List Nat → Option (Nat × List Nat)
  | _, [] => none
  | Discipline.fifo, v :: rest => some (v, rest)
  | Discipline.lifo, l => some (l.getLastD 0, l.dropLast)

def pushFringe (l : List Nat) (v : Nat) : List Nat := l ++ [v]

def emit (st : SearchState) (es : List Event) : SearchState :=
  { st with events := st.events ++ es }

/-- The body run for each adjacency of a dequeued vertex: examine the
representative edge, and unless the target is the start, classify it as
tree (record parent, discover, enqueue) or non-tree by whether the
parent map already has an entry for the target. -/
def searchVisitAdj (g : AGraph) (start v : Nat) (st : SearchState) (w : Nat) :
    SearchState :=
  let e := g.edgeOf v w
  let st := emit st [Event.examineEdge e]
  if w ≠ start then
    match lookupKey st.parents w with
    | none =>
      { emit st [Event.treeEdge e, Event.discoverVertex w] with
        parents := (w, v) :: st.parents
        fringe := pushFringe st.fringe w }
    | some _ => emit st [Event.nonTreeEdge e]
  else st

def searchInner (g : AGraph) (start v : Nat) (st : SearchState) : SearchState :=
  (g.adj v).foldl (searchVisitAdj g start v) st

/-- The shared while-loop of Bfs::run and Dfs::run.  The outer none means
the fuel ran out (never the case for the adequate fuel the run functions
supply) or reverse_path diverged (impossible: the parent map is a tree). -/
def searchLoop (g : AGraph) (disc : Discipline) (start : Nat) (isGoal : Nat → Bool) :
    Nat → SearchState → Option (Option (List Nat) × SearchState)
  | 0, _ => none
  | fuel + 1, st =>
    match popFringe disc st.fringe with
    | none => some (none, st)
    | some (v, rest) =>
      let st := emit { st with fringe := rest } [Event.examineVertex v]
      if isGoal v then
        match reverse_path st.parents v (st.parents.length + 1) with
        | none => none
        | some p => some (some p, st)
      else
        let st := searchInner g start v st
        searchLoop g disc start isGoal fuel (emit st [Event.finishVertex v])

/-- Initialization common to all three searches: an initialize event per
vertex, then discover and enqueue the start. -/
def initState (g : AGraph) (start : Nat) : SearchState :=
  { fringe := [start]
    parents := []
    events := g.verts.map Event.initializeVertex ++ [Event.discoverVertex start] }

def bfsRun (g : AGraph) (start : Nat) (isGoal : Nat → Bool) :
    Option (Option (List Nat) × SearchState) :=
  searchLoop g Discipline.fifo start isGoal (g.verts.length + 1) (initState g start)

def dfsRun (g : AGraph) (start : Nat) (isGoal : Nat → Bool) :
    Option (Option (List Nat) × SearchState) :=
  searchLoop g Discipline.lifo start isGoal (g.verts.length + 1) (initState g start)

/-! ## A* -/

/-- A fringe entry of Astar::run; cost values are modelled as Int. -/
structure AState where
  evaluation : Int
  cost : Int
  vertex : Nat

structure AstarState where
  fringe : List AState
  parents : List (Nat × (Nat × Int))
  events : List Event

def emitA (st : AstarState) (es : List Event) : AstarState :=
  { st with events := st.events ++ es }

/-- BinaryHeap pop through the reversed evaluation order: an entry of
minimal evaluation leaves first (ties broken arbitrarily in the source;
the model takes the earliest-pushed of the minima). -/
def popMinEval (l : List AState) : Option (AState × List AState) :=
  match l with
  | [] => none
  | a :: rest =>
    match popMinEval rest with
    | none => some (a, [])
    | some (b, rest2) =>
      if a.evaluation ≤ b.evaluation then some (a, rest) else some (b, a :: rest2)

def astarVisitAdj (g : AGraph) (edgeCost : Nat → Int) (heur : Nat → Int)
    (start v : Nat) (cost : Int) (st : AstarState) (w : Nat) : AstarState :=
  let e := g.edgeOf v w
  let st := emitA st [Event.examineEdge e]
  let costToAdj := cost + edgeCost e
  if w ≠ start then
    match lookupKey st.parents w with
    | none =>
      { emitA st [Event.edgeRelaxed e, Event.discoverVertex w] with
        parents := (w, (v, costToAdj)) :: st.parents
        fringe := st.fringe ++ [⟨costToAdj + heur w, costToAdj, w⟩] }
    | some pc =>
      if pc.2 > costToAdj then
        { emitA st [Event.edgeRelaxed e, Event.discoverVertex w] with
          parents := setKey st.parents w (v, costToAdj)
          fringe := st.fringe ++ [⟨costToAdj + heur w, costToAdj, w⟩] }
      else emitA st [Event.edgeNotRelaxed e]
  else st

def astarLoop (g : AGraph) (edgeCost : Nat → Int) (heur : Nat → Int)
    (start : Nat) (isGoal : Nat → Bool) :
    Nat → AstarState → Option (Option (List Nat) × AstarState)
  | 0, _ => none
  | fuel + 1, st =>
    match popMinEval st.fringe with
    | none => some (none, st)
    | some (a, rest) =>
      let st := emitA { st with fringe := rest } [Event.examineVertex a.vertex]
      if isGoal a.vertex then
        let ps := st.parents.map (fun kv => (kv.1, kv.2.1))
        match reverse_path ps a.vertex (ps.length + 1) with
        | none => none
        | some p => some (some p, st)
      else
        let st := (g.adj a.vertex).foldl
          (astarVisitAdj g edgeCost heur start a.vertex a.cost) st
        astarLoop g edgeCost heur start isGoal fuel
          (emitA st [Event.finishVertex a.vertex])

def astarInit (g : AGraph) (heur : Nat → Int) (start : Nat) : AstarState :=
  { fringe := [⟨heur start, 0, start⟩]
    parents := []
    events := g.verts.map Event.initializeVertex ++ [Event.discoverVertex start] }

def astarRun (g : AGraph) (edgeCost : Nat → Int) (heur : Nat → Int)
    (start : Nat) (isGoal : Nat → Bool) (fuel : Nat) :
    Option (Option (List Nat) × AstarState) :=
  astarLoop g edgeCost heur start isGoal fuel (astarInit g heur start)

/-! ## Paths -/

/-- A valid path: nonempty, starts at s, ends at t, and every consecutive
pair is connected through the adjacency enumeration in that direction. -/
def IsPath (g : AGraph) (s t : Nat) (p : List Nat) : Prop :=
  p.head? = some s ∧ p.getLast? = some t ∧ List.Chain' (fun a b => b ∈ g.adj a) p

/-- Some vertex satisfying the goal is reachable from s. -/
def ReachableGoal (g : AGraph) (s : Nat) (isGoal : Nat → Bool) : Prop :=
  ∃ t p, isGoal t = true ∧ IsPath g s t p

/-- n is the least edge count over valid paths from s to w. -/
def IsLeastDist (g : AGraph) (s w n : Nat) : Prop :=
  (∃ p, IsPath g s w p ∧ p.length = n + 1) ∧
    ∀ p, IsPath g s w p → n + 1 ≤ p.length

/-! ## Parent chains -/

/-- The parent-lookup sequence from v down to a vertex with no entry:
l is [v, parent v, parent (parent v), ..., root]. -/
inductive ChainStops (ps : List (Nat × Nat)) : Nat → List Nat → Prop
  | root (v : Nat) (h : lookupKey ps v = none) : ChainStops ps v [v]
  | step (v p : Nat) (l : List Nat) (h : lookupKey ps v = some p)
      (hp : ChainStops ps p l) : ChainStops ps v (v :: l)

/-- Following parent entries from w reaches start in n steps. -/
inductive PChain (ps : List (Nat × Nat)) (start : Nat) : Nat → Nat → Prop
  | zero : PChain ps start start 0
  | succ {w u n : Nat} (h : lookupKey ps w = some u) (hp : PChain ps start u n) :
      PChain ps start w (n + 1)

/-- Discovered: the start, or a vertex with a parent entry. -/
def InP (st : SearchState) (start u : Nat) : Prop :=
  u = start ∨ lookupKey st.parents u ≠ none

/-- Discovered, as a boolean (used to split paths at the frontier). -/
def inPB (st : SearchState) (start u : Nat) : Bool :=
  decide (u = start) || (lookupKey st.parents u).isSome

/-- Discovered and no longer on the fringe: dequeued and fully expanded. -/
def Processed (st : SearchState) (start u : Nat) : Prop :=
  InP st start u ∧ u ∉ st.fringe

/-- The loop invariant shared by the BFS and DFS while-loops. -/
structure InvCore (g : AGraph) (start : Nat) (isGoal : Nat → Bool) (st : SearchState) :
    Prop where
  startKey : lookupKey st.parents start = none
  keysNodup : (assocKeys st.parents).Nodup
  parentAdj : ∀ w u, lookupKey st.parents w = some u → w ∈ g.adj u ∧ w ≠ start
  chain : ∀ w, InP st start w → ∃ n, PChain st.parents start w n
  fringeP : ∀ x ∈ st.fringe, InP st start x
  fringeNodup : st.fringe.Nodup
  fringeVerts : ∀ x ∈ st.fringe, x ∈ g.verts
  keysVerts : ∀ w u, lookupKey st.parents w = some u → w ∈ g.verts
  expanded : ∀ u, Processed st start u → ∀ w ∈ g.adj u, InP st start w
  nogoal : ∀ u, Processed st start u → isGoal u = false

/-- The FIFO-specific strengthening: fringe depths are non-decreasing and
span at most two consecutive levels, and every recorded depth is the
graph distance. -/
structure InvBfs (g : AGraph) (start : Nat) (st : SearchState) : Prop where
  depths : ∃ ds : List Nat,
    List.Forall₂ (fun v n => PChain st.parents start v n) st.fringe ds ∧
      ds.Pairwise (· ≤ ·) ∧ ∀ a ∈ ds, ∀ b ∈ ds, b ≤ a + 1
  minDepth : ∀ w n, InP st start w → PChain st.parents start w n → IsLeastDist g start w n

/-- Loop-termination measure: fringe size plus undiscovered vertices. -/
def searchMeasure (g : AGraph) (start : Nat) (st : SearchState) : Nat :=
  st.fringe.length +
    g.verts.countP (fun z => decide (z ≠ start) && !(lookupKey st.parents z).isSome)

/-- What C5 asserts of one run result: a some result is a valid path to a
goal vertex, and a none result happens exactly when no goal is reachable. -/
def RunMatches (g : AGraph) (start : Nat) (isGoal : Nat → Bool)
    (r : Option (Option (List Nat) × SearchState)) : Prop :=
  ∃ res st, r = some (res, st) ∧
    (∀ p, res = some p → ∃ t, isGoal t = true ∧ IsPath g start t p) ∧
    (res = none ↔ ¬ReachableGoal g start isGoal)

/-! ## Storage well-formedness

The facts about intrusive chains that hold for every storage reachable
through the mutation interface and that the enumeration claims rely on. -/

/-- The chain walk starting at head reaches an absent link within fuel
steps (no dangling link, no cycle cut off by the fuel bound). -/
def walkClosed {EP : Type} (s : Slab (Edge EP)) (kind : EdgeKind) :
    Nat → Option Nat → Bool
  | _, none => true
  | 0, some _ => false
  | fuel + 1, some ed =>
    match s.get ed with
    | none => false
    | some e => walkClosed s kind fuel (e.nextOf kind)

def srcIs {VP EP : Type} (g : IncidenceList VP EP) (e v : Nat) : Prop :=
  ∃ ed, g.edges.get e = some ed ∧ ed.src = some v

def tgtIs {VP EP : Type} (g : IncidenceList VP EP) (e v : Nat) : Prop :=
  ∃ ed, g.edges.get e = some ed ∧ ed.tgt = some v

/-- The outgoing chain of a live vertex, walked with the standard fuel. -/
def outChainOf {VP EP : Type} (g : IncidenceList VP EP) (vrec : Vertex VP) : List Nat :=
  IncidenceList.incidentWalk g.edges EdgeKind.outgoing g.edges.data.length vrec.outHead

def inChainOf {VP EP : Type} (g : IncidenceList VP EP) (vrec : Vertex VP) : List Nat :=
  IncidenceList.incidentWalk g.edges EdgeKind.incoming g.edges.data.length vrec.inHead

/-- The far endpoint an IncidentVertices step yields for a live edge. -/
def farEndpoint {EP : Type} (s : Slab (Edge EP)) (kind : VertexKind) (e : Nat) : Nat :=
  match s.get e with
  | none => 0
  | some ed =>
    match kind with
    | VertexKind.successor => ed.tgt.getD 0
    | VertexKind.predecessor => ed.src.getD 0

/-- The chain an IncidentVertices iterator of the given kind walks. -/
def edgeKindOf : VertexKind → EdgeKind
  | VertexKind.successor => EdgeKind.outgoing
  | VertexKind.predecessor => EdgeKind.incoming

/-- The successor enumeration of a live vertex: targets along its
outgoing chain. -/
def succList {VP EP : Type} (g : IncidenceList VP EP) (vrec : Vertex VP) : List Nat :=
  (outChainOf g vrec).map (farEndpoint g.edges VertexKind.successor)

/-- The predecessor enumeration of a live vertex: sources along its
incoming chain. -/
def predList {VP EP : Type} (g : IncidenceList VP EP) (vrec : Vertex VP) : List Nat :=
  (inChainOf g vrec).map (farEndpoint g.edges VertexKind.predecessor)

/-- Chain well-formedness of the storage: every live edge has two live
endpoints, and each live vertex's outgoing (incoming) chain terminates
and holds exactly the live edges whose source (target) is that vertex. -/
structure StorageWf {VP EP : Type} (g : IncidenceList VP EP) : Prop where
  endpoints : ∀ e ed, g.edges.get e = some ed →
    (∃ a, ed.src = some a ∧ (g.vertices.get a).isSome = true) ∧
      ∃ b, ed.tgt = some b ∧ (g.vertices.get b).isSome = true
  outClosed : ∀ v vrec, g.vertices.get v = some vrec →
    walkClosed g.edges EdgeKind.outgoing g.edges.data.length vrec.outHead = true
  outMem : ∀ v vrec, g.vertices.get v = some vrec →
    ∀ e, e ∈ outChainOf g vrec ↔ srcIs g e v
  inClosed : ∀ v vrec, g.vertices.get v = some vrec →
    walkClosed g.edges EdgeKind.incoming g.edges.data.length vrec.inHead = true
  inMem : ∀ v vrec, g.vertices.get v = some vrec →
    ∀ e, e ∈ inChainOf g vrec ↔ tgtIs g e v

/-! ## Spec-side form of the BFS/DFS inner loop (for the amended C6) -/

/-- Fresh non-start targets: those that get classified as tree edges. -/
def freshNonStart (ps : List (Nat × Nat)) (start w : Nat) : Bool :=
  decide (w ≠ start) && !(lookupKey ps w).isSome

/-- The adjacencies of v that get discovered while v is expanded. -/
def freshList (g : AGraph) (start v : Nat) (ps : List (Nat × Nat)) : List Nat :=
  (g.adj v).filter (freshNonStart ps start)

/-- Modelled from the amended claim wording: per distinct adjacent vertex
one edge-examined event for the representative edge; targets other than
the start are classified tree (then discovered) when they have no parent
entry yet and non-tree otherwise; start targets are examined only. -/
def innerEventsPerSpec (g : AGraph) (start v : Nat) (ps : List (Nat × Nat)) :
    List Nat → List Event
  | [] => []
  | w :: ws =>
    (Event.examineEdge (g.edgeOf v w) ::
        if w = start then []
        else
          match lookupKey ps w with
          | none => [Event.treeEdge (g.edgeOf v w), Event.discoverVertex w]
          | some _ => [Event.nonTreeEdge (g.edgeOf v w)]) ++
      innerEventsPerSpec g start v ps ws

/-- The state of the BFS/DFS loop after one full expansion of the popped
vertex v, the remaining fringe being rest. -/
def bodyState (g : AGraph) (start v : Nat) (st : SearchState) (rest : List Nat) :
    SearchState where
  fringe := rest ++ freshList g start v st.parents
  parents := ((freshList g start v st.parents).map (fun w => (w, v))).reverse ++
    st.parents
  events := ((st.events ++ [Event.examineVertex v]) ++
    innerEventsPerSpec g start v st.parents (g.adj v)) ++ [Event.finishVertex v]

/-! ## Minimal path costs in a stored graph (for C3) -/

/-- The least cost among the parallel edges from a to b, if any. -/
def minEdgeCostBetween {VP EP : Type} (il : IncidenceList VP EP) (cost : Nat → Int)
    (a b : Nat) : Option Int :=
  ((List.range il.edges.data.length).filterMap (fun k =>
      match il.edges.get k with
      | some e => if e.src = some a ∧ e.tgt = some b then some (cost k) else none
      | none => none)).foldr
    (fun c acc =>
      match acc with
      | none => some c
      | some m => some (min c m))
    none

/-- The least total cost realizable along a given vertex sequence,
choosing the cheapest parallel edge for every hop. -/
def pathMinCost {VP EP : Type} (il : IncidenceList VP EP) (cost : Nat → Int) :
    List Nat → Option Int
  | [] => some 0
  | [_] => some 0
  | a :: b :: rest =>
    match minEdgeCostBetween il cost a b, pathMinCost il cost (b :: rest) with
    | some c, some s => some (c + s)
    | _, _ => none

/-! ## Concrete storages used as failing inputs and witnesses -/

def emptyIL : IncidenceList Nat Unit := ⟨⟨[]⟩, ⟨[]⟩⟩

/-- Two vertices 0, 1 and one edge 0 → 1 (edge key 0). -/
def c1graph : IncidenceList Nat Unit :=
  let g := (IncidenceList.add_vertex emptyIL 10).2
  let g := (IncidenceList.add_vertex g 20).2
  (IncidenceList.add_edge g 0 1 ()).2

/-- The C3 failing input: vertices 0 = s, 1 = a, 2 = b, 3 = g and edges
key 0: s→a cost 10, key 1: s→b cost 3, key 2: a→g cost 1,
key 3: b→g cost 3, key 4: s→a cost 1 (a cheap edge parallel to key 0). -/
def c3graph : IncidenceList Unit Int :=
  let g0 : IncidenceList Unit Int := ⟨⟨[]⟩, ⟨[]⟩⟩
  let g := (List.range 4).foldl (fun g _ => (IncidenceList.add_vertex g ()).2) g0
  [((0, 1), (10 : Int)), ((0, 2), 3), ((1, 3), 1), ((2, 3), 3), ((0, 1), 1)].foldl
    (fun g e => (IncidenceList.add_edge g e.1.1 e.1.2 e.2).2) g

/-- The edge-cost closure of the C3 scenario: the stored edge property. -/
def c3cost (e : Nat) : Int := (c3graph.edge_property e).getD 0

/-- Two vertices 0, 1 with two parallel edges 0 → 1 (keys 0 and 1). -/
def c6graph : IncidenceList Nat Unit :=
  let g := (IncidenceList.add_vertex emptyIL 0).2
  let g := (IncidenceList.add_vertex g 1).2
  (IncidenceList.add_edge (IncidenceList.add_edge g 0 1 ()).2 0 1 ()).2

/-- One vertex 0 carrying property 5 with a self-loop edge 0 → 0. -/
def c8loopGraph : IncidenceList Nat Unit :=
  (IncidenceList.add_edge (IncidenceList.add_vertex emptyIL 5).2 0 0 ()).2

/-- Vertices 0, 1 with edges 0 → 1 (key 0) and 1 → 0 (key 1). -/
def c8okGraph : IncidenceList Nat Unit :=
  let g := (IncidenceList.add_vertex emptyIL 5).2
  let g := (IncidenceList.add_vertex g 6).2
  (IncidenceList.add_edge (IncidenceList.add_edge g 0 1 ()).2 1 0 ()).2

/-- Vertices 0 (property 10), 1, 2, 3 with edges 0 → 1 (key 0),
0 → 2 (key 1) and 0 → 3 (key 2): vertex 0's outgoing chain is
2 → 1 → 0 with head 2. -/
def chainBase : IncidenceList Nat Unit :=
  let g := (IncidenceList.add_vertex emptyIL 10).2
  let g := (IncidenceList.add_vertex g 11).2
  let g := (IncidenceList.add_vertex g 12).2
  let g := (IncidenceList.add_vertex g 13).2
  let g := (IncidenceList.add_edge g 0 1 ()).2
  let g := (IncidenceList.add_edge g 0 2 ()).2
  (IncidenceList.add_edge g 0 3 ()).2

/-- chainBase after remove_edge of the non-head edge 1: the removal
returns the property, but the chain-splice branch is dead code, so edge
2's next link still points at the vacated slot 1 and vertex 0's outgoing
chain is truncated to [2] although edge 0 (0 → 1) is still live. -/
def chainBroken : IncidenceList Nat Unit :=
  ((IncidenceList.remove_edge chainBase 1).getD (none, chainBase)).2

/-- A two-vertex AGraph with the single arc 0 → 1 (used by witnesses). -/
def wGraph : AGraph where
  verts := [0, 1]
  adj := fun v => if v = 0 then [1] else []
  edgeOf := fun _ _ => 0

/-- The state in which BFS/DFS return when the start satisfies the goal. -/
def goalAtStartStateB (g : AGraph) (start : Nat) : SearchState :=
  emit { initState g start with fringe := [] } [Event.examineVertex start]

/-- The state in which A* returns when the start satisfies the goal. -/
def goalAtStartStateA (g : AGraph) (heur : Nat → Int) (start : Nat) : AstarState :=
  emitA { astarInit g heur start with fringe := [] } [Event.examineVertex start]

/-! # Theorems -/

/-! ## Sorting lemmas -/

theorem mem_insertSorted {a x : Nat} :
    ∀ {l : List Nat}, a ∈ insertSorted x l ↔ a = x ∨ a ∈ l := by
  intro l
  induction l with
  | nil => simp [insertSorted]
  | cons y ys ih =>
    by_cases h : x ≤ y
    · simp [insertSorted, h]
    · simp only [insertSorted, if_neg h, List.mem_cons, ih]
      tauto

theorem pairwise_insertSorted {x : Nat} :
    ∀ {l : List Nat}, l.Pairwise (· ≤ ·) → (insertSorted x l).Pairwise (· ≤ ·) := by
  intro l
  induction l with
  | nil => intro _; simp [insertSorted]
  | cons y ys ih =>
    intro h
    rw [List.pairwise_cons] at h
    by_cases hxy : x ≤ y
    · simp only [insertSorted, if_pos hxy]
      refine List.Pairwise.cons ?_ (List.Pairwise.cons h.1 h.2)
      intro b hb
      rcases List.mem_cons.mp hb with rfl | hb
      · exact hxy
      · exact le_trans hxy (h.1 b hb)
    · simp only [insertSorted, if_neg hxy]
      refine List.Pairwise.cons ?_ (ih h.2)
      intro b hb
      rcases mem_insertSorted.mp hb with rfl | hb
      · exact le_of_not_le hxy
      · exact h.1 b hb

theorem mem_sortList {a : Nat} : ∀ {l : List Nat}, a ∈ sortList l ↔ a ∈ l := by
  intro l
  induction l with
  | nil => simp [sortList]
  | cons y ys ih =>
    show a ∈ insertSorted y (sortList ys) ↔ _
    simp [mem_insertSorted, ih]

theorem pairwise_sortList (l : List Nat) : (sortList l).Pairwise (· ≤ ·) := by
  induction l with
  | nil => simp [sortList]
  | cons y ys ih => exact pairwise_insertSorted ih

theorem mem_dedupSorted {a : Nat} : ∀ {l : List Nat}, a ∈ dedupSorted l ↔ a ∈ l := by
  intro l
  induction l with
  | nil => simp [dedupSorted]
  | cons x t ih =>
    cases t with
    | nil => simp [dedupSorted]
    | cons y ys =>
      by_cases hxy : x = y
      · subst hxy
        show a ∈ (if x = x then dedupSorted (x :: ys) else _) ↔ _
        rw [if_pos rfl, ih]
        simp
      · show a ∈ (if x = y then _ else x :: dedupSorted (y :: ys)) ↔ _
        rw [if_neg hxy, List.mem_cons, ih]
        simp

theorem pairwise_dedupSorted :
    ∀ {l : List Nat}, l.Pairwise (· ≤ ·) → (dedupSorted l).Pairwise (· < ·) := by
  intro l
  induction l with
  | nil => intro _; simp [dedupSorted]
  | cons x t ih =>
    cases t with
    | nil => intro _; simp [dedupSorted]
    | cons y ys =>
      intro h
      rw [List.pairwise_cons] at h
      by_cases hxy : x = y
      · subst hxy
        show ((if x = x then dedupSorted (x :: ys) else _) : List Nat).Pairwise (· < ·)
        rw [if_pos rfl]
        exact ih h.2
      · show ((if x = y then _ else x :: dedupSorted (y :: ys)) : List Nat).Pairwise (· < ·)
        rw [if_neg hxy]
        refine List.Pairwise.cons ?_ (ih h.2)
        intro b hb
        have hble := mem_dedupSorted.mp hb
        rcases List.mem_cons.mp hble with rfl | hbys
        · exact lt_of_le_of_ne (h.1 b (List.mem_cons_self _ _)) hxy
        · have hxb : x ≤ y := h.1 y (List.mem_cons_self _ _)
          have hyb : y ≤ b := (List.pairwise_cons.mp h.2).1 b hbys
          exact lt_of_lt_of_le (lt_of_le_of_ne hxb hxy) hyb

theorem mem_sortDedup {a : Nat} {l : List Nat} : a ∈ sortDedup l ↔ a ∈ l := by
  unfold sortDedup
  rw [mem_dedupSorted, mem_sortList]

theorem pairwise_sortDedup (l : List Nat) : (sortDedup l).Pairwise (· < ·) :=
  pairwise_dedupSorted (pairwise_sortList l)

/-! ## Path reconstruction (C9) -/

theorem ChainStops.length_pos {ps : List (Nat × Nat)} {v : Nat} {l : List Nat}
    (h : ChainStops ps v l) : 0 < l.length := by
  cases h <;> simp

theorem reversePathLoop_chain (ps : List (Nat × Nat)) {l : List Nat} {v : Nat}
    (h : ChainStops ps v l) :
    ∀ (pre : List Nat) (fuel : Nat), l.length ≤ fuel + 1 →
      reversePathLoop ps fuel (pre ++ [v]) = some (pre ++ l) := by
  induction h with
  | root w hw =>
    intro pre fuel _
    cases fuel with
    | zero => simp [reversePathLoop, hw]
    | succ f => simp [reversePathLoop, hw]
  | step w p l hl hp ih =>
    intro pre fuel hf
    have hlp : 0 < l.length := hp.length_pos
    cases fuel with
    | zero => simp only [List.length_cons] at hf; omega
    | succ f =>
      have hstep : reversePathLoop ps (f + 1) (pre ++ [w]) =
          reversePathLoop ps f ((pre ++ [w]) ++ [p]) := by
        simp [reversePathLoop, hl]
      rw [hstep, ih (pre ++ [w]) f (by simp only [List.length_cons] at hf; omega)]
      simp

theorem reverse_path_of_chainStops (ps : List (Nat × Nat)) (goal : Nat)
    (l : List Nat) (h : ChainStops ps goal l) (fuel : Nat)
    (hf : l.length ≤ fuel + 1) : reverse_path ps goal fuel = some l.reverse := by
  unfold reverse_path
  have h0 := reversePathLoop_chain ps h [] fuel hf
  simp only [List.nil_append] at h0
  rw [h0]
  rfl

/-- C9: for a parent map whose chain from the goal is acyclic and stops at
a vertex without an entry, reverse_path terminates (for any sufficient
fuel) and returns the lookup sequence from the goal reversed, parentless
vertex first and goal last. -/
theorem reverse_path_reconstructs (ps : List (Nat × Nat)) (goal : Nat) (l : List Nat)
    (h : ChainStops ps goal l) (fuel : Nat) (hf : l.length ≤ fuel + 1) :
    reverse_path ps goal fuel = some l.reverse :=
  reverse_path_of_chainStops ps goal l h fuel hf

theorem reverse_path_reconstructs_witness :
    ChainStops [(3, 2), (2, 1)] 3 [3, 2, 1] ∧
      reverse_path [(3, 2), (2, 1)] 3 2 = some [1, 2, 3] := by
  have hc : ChainStops [(3, 2), (2, 1)] 3 [3, 2, 1] :=
    ChainStops.step 3 2 _ rfl (ChainStops.step 2 1 _ rfl (ChainStops.root 1 rfl))
  exact ⟨hc, by rw [reverse_path_reconstructs _ _ _ hc 2 (by decide)]; rfl⟩

/-! ## Storage lookups and mutation on stale descriptors (C1, C2) -/

/-- C1: add_edge on a live source and a dead target returns none yet
rewrites the source vertex's outgoing head to the never-inserted edge key,
truncating its previously intact outgoing chain — the storage is not left
unchanged. -/
theorem add_edge_dead_target_mutates_source :
    (IncidenceList.add_edge c1graph 0 7 ()).1 = none ∧
      IncidenceList.out_edges c1graph 0 = some [0] ∧
      IncidenceList.out_edges (IncidenceList.add_edge c1graph 0 7 ()).2 0 = some [] ∧
      ((IncidenceList.add_edge c1graph 0 7 ()).2.vertices.get 0).map Vertex.outHead =
        some (some 1) ∧
      (c1graph.vertices.get 0).map Vertex.outHead = some (some 0) :=
  ⟨rfl, rfl, rfl, rfl, rfl⟩

/-- C2 counterexample: enumerating incidence or adjacency of a descriptor
that does not resolve indexes the vertex arena and panics (modelled as
none), instead of returning an empty enumeration. -/
theorem out_edges_panics_on_stale :
    IncidenceList.out_edges emptyIL 0 = none ∧
      IncidenceList.adjacent_vertices emptyIL true 0 = none ∧
      IncidenceList.adjacent_vertices emptyIL false 0 = none :=
  ⟨rfl, rfl, rfl⟩

/-- C2 amended: on a stale or out-of-range descriptor the property lookups
return absent without panicking, while out_edges, in_edges and
adjacent_vertices panic (the arena is indexed, modelled by none). -/
theorem stale_descriptor_lookups {VP EP : Type} (g : IncidenceList VP EP)
    (dv de : Nat) (directed : Bool)
    (hv : g.vertices.get dv = none) (he : g.edges.get de = none) :
    g.vertex_property dv = none ∧ g.edge_property de = none ∧
      g.out_edges dv = none ∧ g.in_edges dv = none ∧
      g.adjacent_vertices directed dv = none := by
  simp [IncidenceList.vertex_property, IncidenceList.edge_property,
    IncidenceList.out_edges, IncidenceList.in_edges, IncidenceList.adjacent_vertices,
    hv, he]

theorem stale_descriptor_lookups_witness :
    emptyIL.vertices.get 0 = none ∧ emptyIL.edges.get 0 = none ∧
      (emptyIL.vertex_property 0 = none ∧ emptyIL.edge_property 0 = none ∧
        emptyIL.out_edges 0 = none ∧ emptyIL.in_edges 0 = none ∧
        emptyIL.adjacent_vertices true 0 = none) :=
  ⟨rfl, rfl, stale_descriptor_lookups emptyIL 0 0 true rfl rfl⟩

/-! ## A* with a cheap parallel edge (C3) -/

/-- C3: with the zero heuristic (trivially admissible) on a graph whose
cheap s→a edge is parallel to a costlier one, the run relaxes through the
first-by-key representative edge only, returns the path [s, b, g] whose
least realizable cost is 6, although the path [s, a, g] costs 2 — the
returned path is not cost-minimal and differs from Dijkstra's answer. -/
theorem astar_returns_costlier_path :
    (astarRun (aGraphOf c3graph true) c3cost (fun _ => 0) 0 (fun v => v == 3) 5).map
        Prod.fst = some (some [0, 2, 3]) ∧
      IsPath (aGraphOf c3graph true) 0 3 [0, 1, 3] ∧
      pathMinCost c3graph c3cost [0, 1, 3] = some 2 ∧
      pathMinCost c3graph c3cost [0, 2, 3] = some 6 := by
  refine ⟨by rfl, ?_, by rfl, by rfl⟩
  refine ⟨rfl, rfl, ?_⟩
  rw [List.chain'_cons, List.chain'_cons]
  exact ⟨by decide, by decide, List.chain'_singleton _⟩

/-! ## One examined edge per distinct target (C6 counterexample) -/

/-- C6 counterexample: vertex 0 has two parallel outgoing edges to vertex
1, but a full BFS run emits exactly one edge-examined event, not one per
outgoing edge. -/
theorem bfs_examines_one_edge_per_target :
    ((bfsRun (aGraphOf c6graph true) 0 (fun _ => false)).map (fun r =>
        r.2.events.countP (fun e =>
          match e with
          | Event.examineEdge _ => true
          | _ => false))) = some 1 ∧
      (IncidenceList.out_edges c6graph 0).map List.length = some 2 :=
  ⟨rfl, rfl⟩

/-! ## Goal satisfied at the start (C10) -/

theorem init_events_no_edge (g : AGraph) (start : Nat) :
    ∀ e ∈ (g.verts.map Event.initializeVertex ++ [Event.discoverVertex start]) ++
        [Event.examineVertex start], e.isEdgeEvent = false := by
  intro e he
  simp only [List.mem_append, List.mem_map, List.mem_singleton] at he
  rcases he with (⟨v, _, rfl⟩ | rfl) | rfl <;> rfl

/-- C10: when the goal predicate holds at the start, BFS, DFS and A* all
return the one-element path [start] and no edge event (examined, tree,
non-tree, relaxed, not-relaxed) is ever emitted. -/
theorem goal_at_start_returns_singleton (g : AGraph) (start : Nat) (isGoal : Nat → Bool)
    (edgeCost heur : Nat → Int) (fuel : Nat) (hgoal : isGoal start = true) :
    (bfsRun g start isGoal = some (some [start], goalAtStartStateB g start) ∧
        ∀ e ∈ (goalAtStartStateB g start).events, e.isEdgeEvent = false) ∧
      (dfsRun g start isGoal = some (some [start], goalAtStartStateB g start) ∧
        ∀ e ∈ (goalAtStartStateB g start).events, e.isEdgeEvent = false) ∧
      astarRun g edgeCost heur start isGoal (fuel + 1) =
          some (some [start], goalAtStartStateA g heur start) ∧
        ∀ e ∈ (goalAtStartStateA g heur start).events, e.isEdgeEvent = false := by
  have hev : ∀ e ∈ (goalAtStartStateB g start).events, e.isEdgeEvent = false :=
    init_events_no_edge g start
  have hevA : ∀ e ∈ (goalAtStartStateA g heur start).events, e.isEdgeEvent = false :=
    init_events_no_edge g start
  refine ⟨⟨?_, hev⟩, ⟨?_, hev⟩, ?_, hevA⟩
  · show searchLoop _ _ _ _ (g.verts.length + 1) _ = _
    simp only [searchLoop, initState, popFringe, hgoal, if_true, reverse_path,
      reversePathLoop, lookupKey, emit]
    rfl
  · show searchLoop _ _ _ _ (g.verts.length + 1) _ = _
    simp only [searchLoop, initState, popFringe, List.getLastD_cons, List.getLastD_nil,
      List.dropLast_single, hgoal, if_true, reverse_path, reversePathLoop, lookupKey, emit]
    rfl
  · show astarLoop _ _ _ _ _ (fuel + 1) _ = _
    simp only [astarLoop, astarInit, popMinEval, hgoal, if_true, reverse_path,
      reversePathLoop, lookupKey, emitA]
    rfl

theorem goal_at_start_returns_singleton_witness :
    (fun v => v == 0) 0 = true ∧
      ((bfsRun wGraph 0 (fun v => v == 0) =
            some (some [0], goalAtStartStateB wGraph 0) ∧
          ∀ e ∈ (goalAtStartStateB wGraph 0).events, e.isEdgeEvent = false) ∧
        (dfsRun wGraph 0 (fun v => v == 0) =
            some (some [0], goalAtStartStateB wGraph 0) ∧
          ∀ e ∈ (goalAtStartStateB wGraph 0).events, e.isEdgeEvent = false) ∧
        astarRun wGraph (fun _ => 0) (fun _ => 0) 0 (fun v => v == 0) (0 + 1) =
            some (some [0], goalAtStartStateA wGraph (fun _ => 0) 0) ∧
          ∀ e ∈ (goalAtStartStateA wGraph (fun _ => 0) 0).events, e.isEdgeEvent = false) :=
  ⟨rfl, goal_at_start_returns_singleton wGraph 0 (fun v => v == 0)
    (fun _ => 0) (fun _ => 0) 0 rfl⟩

/-! ## Slab lemmas -/

theorem Slab.get_some_lt {α : Type} {s : Slab α} {k : Nat} {a : α}
    (h : s.get k = some a) : k < s.data.length := by
  by_contra hk
  push_neg at hk
  unfold Slab.get at h
  rw [List.getD_eq_getElem?_getD, List.getElem?_eq_none hk] at h
  simp at h

theorem Slab.get_setAt {α : Type} (s : Slab α) (k : Nat) (a : α) (j : Nat)
    (hk : k < s.data.length) :
    (s.setAt k a).get j = if j = k then some a else s.get j := by
  unfold Slab.get Slab.setAt
  simp only [List.getD_eq_getElem?_getD, List.getElem?_set]
  rcases eq_or_ne j k with rfl | hj
  · simp [hk]
  · simp [Ne.symm hj, hj]

theorem Slab.get_removeAt_self {α : Type} (s : Slab α) (k : Nat)
    (hk : k < s.data.length) : (s.removeAt k).get k = none := by
  unfold Slab.get Slab.removeAt
  simp only [List.getD_eq_getElem?_getD, List.getElem?_set]
  simp [hk]

theorem Slab.get_removeAt_ne {α : Type} (s : Slab α) (k j : Nat) (h : j ≠ k) :
    (s.removeAt k).get j = s.get j := by
  unfold Slab.get Slab.removeAt
  simp only [List.getD_eq_getElem?_getD, List.getElem?_set]
  simp [Ne.symm h]

/-! ## Edge and vertex removal (C8) -/

theorem setAt_vertex_preserves {VP EP : Type} (g : IncidenceList VP EP) (vd : Nat)
    (v v' : Vertex VP) (hv : g.vertices.get vd = some v) (hp : v'.prop = v.prop) :
    (∀ w, ((g.vertices.setAt vd v').get w).isSome = (g.vertices.get w).isSome) ∧
      ∀ w, ((g.vertices.setAt vd v').get w).map Vertex.prop =
        (g.vertices.get w).map Vertex.prop := by
  have hk := Slab.get_some_lt hv
  constructor <;> intro w <;> rw [Slab.get_setAt _ _ _ _ hk] <;> by_cases hw : w = vd
  · subst hw; rw [if_pos rfl, hv]; rfl
  · rw [if_neg hw]
  · subst hw; rw [if_pos rfl, hv]; simp [hp]
  · rw [if_neg hw]

theorem spliceSrc_success {VP EP : Type} (g : IncidenceList VP EP) (d : Nat)
    (e : Edge EP) (hs : ∀ a, e.src = some a → (g.vertices.get a).isSome = true) :
    ∃ g', IncidenceList.spliceSrc g d e = some g' ∧ g'.edges = g.edges ∧
      (∀ w, (g'.vertices.get w).isSome = (g.vertices.get w).isSome) ∧
      ∀ w, g'.vertex_property w = g.vertex_property w := by
  cases hsrc : e.src with
  | none =>
    exact ⟨g, by simp [IncidenceList.spliceSrc, hsrc], rfl, fun _ => rfl, fun _ => rfl⟩
  | some vd =>
    obtain ⟨v, hv⟩ := Option.isSome_iff_exists.mp (hs vd hsrc)
    cases hoh : v.outHead with
    | none =>
      exact ⟨g, by simp [IncidenceList.spliceSrc, hsrc, hv, hoh], rfl,
        fun _ => rfl, fun _ => rfl⟩
    | some x =>
      by_cases hxd : x = d
      · refine ⟨{ g with vertices := g.vertices.setAt vd { v with outHead := e.nextOut } },
          by simp [IncidenceList.spliceSrc, hsrc, hv, hoh, hxd], rfl, ?_, ?_⟩
        · exact (setAt_vertex_preserves g vd v { v with outHead := e.nextOut } hv rfl).1
        · exact (setAt_vertex_preserves g vd v { v with outHead := e.nextOut } hv rfl).2
      · exact ⟨g, by simp [IncidenceList.spliceSrc, hsrc, hv, hoh, hxd], rfl,
          fun _ => rfl, fun _ => rfl⟩

theorem spliceTgt_success {VP EP : Type} (g : IncidenceList VP EP) (d : Nat)
    (e : Edge EP) (ht : ∀ b, e.tgt = some b → (g.vertices.get b).isSome = true) :
    ∃ g', IncidenceList.spliceTgt g d e = some g' ∧ g'.edges = g.edges ∧
      (∀ w, (g'.vertices.get w).isSome = (g.vertices.get w).isSome) ∧
      ∀ w, g'.vertex_property w = g.vertex_property w := by
  cases htgt : e.tgt with
  | none =>
    exact ⟨g, by simp [IncidenceList.spliceTgt, htgt], rfl, fun _ => rfl, fun _ => rfl⟩
  | some vd =>
    obtain ⟨v, hv⟩ := Option.isSome_iff_exists.mp (ht vd htgt)
    cases hih : v.inHead with
    | none =>
      exact ⟨g, by simp [IncidenceList.spliceTgt, htgt, hv, hih], rfl,
        fun _ => rfl, fun _ => rfl⟩
    | some x =>
      by_cases hxd : x = d
      · refine ⟨{ g with vertices := g.vertices.setAt vd { v with inHead := e.nextIn } },
          by simp [IncidenceList.spliceTgt, htgt, hv, hih, hxd], rfl, ?_, ?_⟩
        · exact (setAt_vertex_preserves g vd v { v with inHead := e.nextIn } hv rfl).1
        · exact (setAt_vertex_preserves g vd v { v with inHead := e.nextIn } hv rfl).2
      · exact ⟨g, by simp [IncidenceList.spliceTgt, htgt, hv, hih, hxd], rfl,
          fun _ => rfl, fun _ => rfl⟩

theorem remove_edge_success {VP EP : Type} (g : IncidenceList VP EP) (d : Nat)
    (ed : Edge EP) (hd : g.edges.get d = some ed)
    (hs : ∀ a, ed.src = some a → (g.vertices.get a).isSome = true)
    (ht : ∀ b, ed.tgt = some b → (g.vertices.get b).isSome = true) :
    ∃ g', IncidenceList.remove_edge g d = some (some ed.prop, g') ∧
      g'.edges.get d = none ∧ (∀ k, k ≠ d → g'.edges.get k = g.edges.get k) ∧
      (∀ w, (g'.vertices.get w).isSome = (g.vertices.get w).isSome) ∧
      ∀ w, g'.vertex_property w = g.vertex_property w := by
  obtain ⟨g1, h1, he1, hv1, hp1⟩ := spliceSrc_success g d ed hs
  have ht1 : ∀ b, ed.tgt = some b → (g1.vertices.get b).isSome = true := by
    intro b hb; rw [hv1]; exact ht b hb
  obtain ⟨g2, h2, he2, hv2, hp2⟩ := spliceTgt_success g1 d ed ht1
  refine ⟨{ g2 with edges := g2.edges.removeAt d }, ?_, ?_, ?_, ?_, ?_⟩
  · simp only [IncidenceList.remove_edge, hd, h1, h2]
  · show (g2.edges.removeAt d).get d = none
    rw [he2, he1]
    exact Slab.get_removeAt_self _ _ (Slab.get_some_lt hd)
  · intro k hk
    show (g2.edges.removeAt d).get k = _
    rw [he2, he1]
    exact Slab.get_removeAt_ne _ _ _ hk
  · intro w
    show (g2.vertices.get w).isSome = _
    rw [hv2, hv1]
  · intro w
    show g2.vertex_property w = _
    rw [hp2, hp1]

theorem removeEdgesLoop_success {VP EP : Type} :
    ∀ (eds : List Nat) (g : IncidenceList VP EP),
      eds.Nodup →
      (∀ e ∈ eds, ∃ ed, g.edges.get e = some ed ∧
        (∀ a, ed.src = some a → (g.vertices.get a).isSome = true) ∧
        ∀ b, ed.tgt = some b → (g.vertices.get b).isSome = true) →
      ∃ g', IncidenceList.removeEdgesLoop eds g = some (true, g') ∧
        (∀ e ∈ eds, g'.edges.get e = none) ∧
        (∀ e, e ∉ eds → g'.edges.get e = g.edges.get e) ∧
        (∀ w, (g'.vertices.get w).isSome = (g.vertices.get w).isSome) ∧
        ∀ w, g'.vertex_property w = g.vertex_property w := by
  intro eds
  induction eds with
  | nil =>
    intro g _ _
    exact ⟨g, rfl, by simp, fun _ _ => rfl, fun _ => rfl, fun _ => rfl⟩
  | cons e rest ih =>
    intro g hnd hocc
    obtain ⟨ed, hed, hs, ht⟩ := hocc e (List.mem_cons_self _ _)
    obtain ⟨g1, hre, hni, hk, hv, hp⟩ := remove_edge_success g e ed hed hs ht
    have hne : e ∉ rest := (List.nodup_cons.mp hnd).1
    have hocc1 : ∀ x ∈ rest, ∃ xd, g1.edges.get x = some xd ∧
        (∀ a, xd.src = some a → (g1.vertices.get a).isSome = true) ∧
        ∀ b, xd.tgt = some b → (g1.vertices.get b).isSome = true := by
      intro x hx
      obtain ⟨xd, hxd, hxs, hxt⟩ := hocc x (List.mem_cons_of_mem _ hx)
      have hxe : x ≠ e := fun h => hne (h ▸ hx)
      refine ⟨xd, ?_, ?_, ?_⟩
      · rw [hk x hxe]; exact hxd
      · intro a ha; rw [hv]; exact hxs a ha
      · intro b hb; rw [hv]; exact hxt b hb
    obtain ⟨g', hloop, hall, hoth, hv', hp'⟩ := ih g1 (List.nodup_cons.mp hnd).2 hocc1
    refine ⟨g', ?_, ?_, ?_, ?_, ?_⟩
    · show IncidenceList.removeEdgesLoop (e :: rest) g = _
      unfold IncidenceList.removeEdgesLoop
      rw [hre]
      exact hloop
    · intro x hx
      rcases List.mem_cons.mp hx with rfl | hx
      · rw [hoth x hne, hni]
      · exact hall x hx
    · intro x hx
      have hxe : x ≠ e := fun h => hx (h ▸ List.mem_cons_self _ _)
      have hxr : x ∉ rest := fun h => hx (List.mem_cons_of_mem _ h)
      rw [hoth x hxr, hk x hxe]
    · intro w; rw [hv', hv]
    · intro w; rw [hp', hp]

/-- C8 counterexample: two reachable failures of the original removal
claim.  First, a live vertex carrying a self-loop: the loop edge appears
in both collected chains, its second removal returns absent, and
remove_vertex returns absent although descriptor 0 resolves — with the
loop edge already removed, so the storage is also mutated.  Second, a
truncated-chain state (chainBroken, reached by remove_edge of a non-head
edge, whose chain-splice branch is dead code): remove_vertex resolves,
returns the vertex property and removes the vertex record, yet leaves the
live incident edge 0 (0 → 1) in the storage with a now-dangling source,
refuting that all edges incident to the vertex are removed. -/
theorem remove_vertex_incomplete_removal :
    ((c8loopGraph.vertices.get 0).map Vertex.prop = some 5 ∧
      ∃ g', IncidenceList.remove_vertex c8loopGraph 0 = some (none, g') ∧
        g'.vertices.contains 0 = true ∧ g'.edges.get 0 = none) ∧
      ∃ g2, IncidenceList.remove_vertex chainBroken 0 = some (some 10, g2) ∧
        g2.vertices.get 0 = none ∧
        g2.edges.get 0 = some ⟨some 0, (), some 1, none, none⟩ :=
  ⟨⟨rfl, ⟨_, rfl, rfl, rfl⟩⟩, ⟨_, rfl, rfl, rfl⟩⟩

/-- C8 amended: removal on an unresolved descriptor returns absent and
leaves the storage unchanged; removing a live edge with live endpoints
returns the removed edge property (but does not re-splice a chain whose
head is another edge: that branch is dead code, truncating the chain at
the vacated slot); removing a live vertex removes only the incident
edges its possibly-truncated chains collect — when the collected entries
are pairwise distinct (in particular, no self-loop) and live with live
endpoints, each collected edge is removed, then the vertex record, and
the vertex property is returned.  On a truncated-chain state this leaves
uncollected live incident edges behind, and for a vertex with a
self-loop the collected list repeats the loop edge, the second removal
returns absent, and remove_vertex returns absent with the vertex record
still in place. -/
theorem remove_operations_characterization {VP EP : Type} (g : IncidenceList VP EP)
    (dv de : Nat) :
    (g.vertices.contains dv = false →
      IncidenceList.remove_vertex g dv = some (none, g)) ∧
      (g.edges.get de = none → IncidenceList.remove_edge g de = some (none, g)) ∧
      (∀ ed, g.edges.get de = some ed →
        (∀ a, ed.src = some a → (g.vertices.get a).isSome = true) →
        (∀ b, ed.tgt = some b → (g.vertices.get b).isSome = true) →
        ∃ g', IncidenceList.remove_edge g de = some (some ed.prop, g') ∧
          g'.edges.get de = none) ∧
      ∀ vrec, g.vertices.get dv = some vrec →
        (outChainOf g vrec ++ inChainOf g vrec).Nodup →
        (∀ e ∈ outChainOf g vrec ++ inChainOf g vrec, ∃ ed, g.edges.get e = some ed ∧
          (∀ a, ed.src = some a → (g.vertices.get a).isSome = true) ∧
          ∀ b, ed.tgt = some b → (g.vertices.get b).isSome = true) →
        ∃ g', IncidenceList.remove_vertex g dv = some (some vrec.prop, g') ∧
          g'.vertices.get dv = none ∧
          ∀ e ∈ outChainOf g vrec ++ inChainOf g vrec, g'.edges.get e = none := by
  refine ⟨?_, ?_, ?_, ?_⟩
  · intro hc
    unfold IncidenceList.remove_vertex
    rw [if_neg (by simp [hc])]
  · intro hc
    unfold IncidenceList.remove_edge
    rw [hc]
  · intro ed hed hs ht
    obtain ⟨g', h1, h2, _, _, _⟩ := remove_edge_success g de ed hed hs ht
    exact ⟨g', h1, h2⟩
  · intro vrec hv hnd hocc
    obtain ⟨g1, hloop, hall, _, hvs, hvp⟩ :=
      removeEdgesLoop_success (outChainOf g vrec ++ inChainOf g vrec) g hnd hocc
    have hc : g.vertices.contains dv = true := by
      unfold Slab.contains
      rw [hv]
      rfl
    have heds : (IncidenceList.out_edges g dv).getD [] ++
        (IncidenceList.in_edges g dv).getD [] =
        outChainOf g vrec ++ inChainOf g vrec := by
      unfold IncidenceList.out_edges IncidenceList.in_edges outChainOf inChainOf
      rw [hv]
      rfl
    have hg1v : (g1.vertices.get dv).isSome = true := by
      rw [hvs dv, hv]
      rfl
    obtain ⟨vrec1, hvrec1⟩ := Option.isSome_iff_exists.mp hg1v
    have hprop : vrec1.prop = vrec.prop := by
      have := hvp dv
      unfold IncidenceList.vertex_property at this
      rw [hvrec1, hv] at this
      simpa using this
    refine ⟨{ g1 with vertices := g1.vertices.removeAt dv }, ?_, ?_, ?_⟩
    · unfold IncidenceList.remove_vertex
      rw [if_pos hc, heds, hloop]
      show (match g1.vertices.get dv with
        | none => none
        | some v => some (some v.prop, { g1 with vertices := g1.vertices.removeAt dv })) = _
      rw [hvrec1]
      show some (some vrec1.prop, _) = _
      rw [hprop]
    · show (g1.vertices.removeAt dv).get dv = none
      exact Slab.get_removeAt_self _ _ (Slab.get_some_lt hvrec1)
    · intro e he
      exact hall e he

theorem remove_operations_characterization_witness :
    (IncidenceList.remove_vertex c8okGraph 7 = some (none, c8okGraph)) ∧
      (IncidenceList.remove_edge c8okGraph 9 = some (none, c8okGraph)) ∧
      (∃ g', IncidenceList.remove_edge c8okGraph 0 = some (some (), g') ∧
        g'.edges.get 0 = none) ∧
      ∃ g', IncidenceList.remove_vertex c8okGraph 0 = some (some 5, g') ∧
        g'.vertices.get 0 = none ∧
        ∀ e ∈ outChainOf c8okGraph ⟨some 1, 5, some 0⟩ ++
            inChainOf c8okGraph ⟨some 1, 5, some 0⟩, g'.edges.get e = none := by
  have h7 := (remove_operations_characterization c8okGraph 7 9).1 rfl
  have h9 := (remove_operations_characterization c8okGraph 7 9).2.1 rfl
  have hocc : ∀ e ∈ outChainOf c8okGraph ⟨some 1, 5, some 0⟩ ++
      inChainOf c8okGraph ⟨some 1, 5, some 0⟩,
      ∃ ed, c8okGraph.edges.get e = some ed ∧
        (∀ a, ed.src = some a → (c8okGraph.vertices.get a).isSome = true) ∧
        ∀ b, ed.tgt = some b → (c8okGraph.vertices.get b).isSome = true := by
    intro e he
    rw [show outChainOf c8okGraph ⟨some 1, 5, some 0⟩ ++
        inChainOf c8okGraph ⟨some 1, 5, some 0⟩ = [0, 1] from rfl] at he
    rcases List.mem_cons.mp he with rfl | he
    · refine ⟨⟨some 0, (), some 1, none, none⟩, rfl, ?_, ?_⟩
      · intro a ha
        injection ha with h
        subst h
        rfl
      · intro b hb
        injection hb with h
        subst h
        rfl
    rcases List.mem_cons.mp he with rfl | he
    · refine ⟨⟨some 1, (), some 0, none, none⟩, rfl, ?_, ?_⟩
      · intro a ha
        injection ha with h
        subst h
        rfl
      · intro b hb
        injection hb with h
        subst h
        rfl
    · exact absurd he (List.not_mem_nil e)
  have he0 := (remove_operations_characterization c8okGraph 0 0).2.2.1
    ⟨some 0, (), some 1, none, none⟩ rfl
    (by intro a ha; injection ha with h; subst h; rfl)
    (by intro b hb; injection hb with h; subst h; rfl)
  have hv0 := (remove_operations_characterization c8okGraph 0 0).2.2.2
    ⟨some 1, 5, some 0⟩ rfl (by decide) hocc
  exact ⟨h7, h9, he0, hv0⟩

/-! ## Adjacency enumeration (C7) -/

theorem adjacentWalk_eq_map {EP : Type} (s : Slab (Edge EP)) (kind : VertexKind)
    (hend : ∀ e ed, s.get e = some ed → ed.src.isSome = true ∧ ed.tgt.isSome = true) :
    ∀ (fuel : Nat) (head : Option Nat),
      IncidenceList.adjacentWalk s kind fuel head =
        (IncidenceList.incidentWalk s (edgeKindOf kind) fuel head).map
          (farEndpoint s kind) := by
  intro fuel
  induction fuel with
  | zero => intro head; cases head <;> cases kind <;> rfl
  | succ f ih =>
    intro head
    cases head with
    | none => cases kind <;> rfl
    | some e =>
      cases hge : s.get e with
      | none =>
        cases kind <;>
          simp [IncidenceList.adjacentWalk, IncidenceList.incidentWalk, hge]
      | some ed =>
        obtain ⟨hsrc, htgt⟩ := hend e ed hge
        obtain ⟨a, ha⟩ := Option.isSome_iff_exists.mp hsrc
        obtain ⟨b, hb⟩ := Option.isSome_iff_exists.mp htgt
        cases kind with
        | successor =>
          simp [IncidenceList.adjacentWalk, IncidenceList.incidentWalk, hge, hb,
            edgeKindOf, farEndpoint, Edge.nextOf, ih]
        | predecessor =>
          simp [IncidenceList.adjacentWalk, IncidenceList.incidentWalk, hge, ha,
            edgeKindOf, farEndpoint, Edge.nextOf, ih]

theorem StorageWf.endpointsSome {VP EP : Type} {g : IncidenceList VP EP}
    (hwf : StorageWf g) :
    ∀ e ed, g.edges.get e = some ed → ed.src.isSome = true ∧ ed.tgt.isSome = true := by
  intro e ed hed
  obtain ⟨⟨a, ha, _⟩, ⟨b, hb, _⟩⟩ := hwf.endpoints e ed hed
  exact ⟨by simp [ha], by simp [hb]⟩

theorem adjacent_vertices_eq_sortDedup {VP EP : Type} (g : IncidenceList VP EP)
    (hwf : StorageWf g) (directed : Bool) (v : Nat) (vrec : Vertex VP)
    (hv : g.vertices.get v = some vrec) :
    g.adjacent_vertices directed v =
      some (sortDedup (if directed then succList g vrec
        else succList g vrec ++ predList g vrec)) := by
  unfold IncidenceList.adjacent_vertices
  rw [hv]
  have hsucc := adjacentWalk_eq_map g.edges VertexKind.successor hwf.endpointsSome
    g.edges.data.length vrec.outHead
  have hpred := adjacentWalk_eq_map g.edges VertexKind.predecessor hwf.endpointsSome
    g.edges.data.length vrec.inHead
  simp only [Option.map_some']
  rw [hsucc, hpred]
  rfl

theorem mem_succList {VP EP : Type} {g : IncidenceList VP EP} (hwf : StorageWf g)
    {v : Nat} {vrec : Vertex VP} (hv : g.vertices.get v = some vrec) (w : Nat) :
    w ∈ succList g vrec ↔ ∃ e, srcIs g e v ∧ tgtIs g e w := by
  unfold succList
  rw [List.mem_map]
  constructor
  · rintro ⟨e, he, rfl⟩
    have hsrc := (hwf.outMem v vrec hv e).mp he
    obtain ⟨ed, hed, hs⟩ := hsrc
    obtain ⟨-, b, hb, -⟩ := hwf.endpoints e ed hed
    refine ⟨e, ⟨ed, hed, hs⟩, ⟨ed, hed, ?_⟩⟩
    simp [farEndpoint, hed, hb]
  · rintro ⟨e, hsrc, ⟨ed, hed, ht⟩⟩
    refine ⟨e, (hwf.outMem v vrec hv e).mpr hsrc, ?_⟩
    simp [farEndpoint, hed, ht]

theorem mem_predList {VP EP : Type} {g : IncidenceList VP EP} (hwf : StorageWf g)
    {v : Nat} {vrec : Vertex VP} (hv : g.vertices.get v = some vrec) (w : Nat) :
    w ∈ predList g vrec ↔ ∃ e, tgtIs g e v ∧ srcIs g e w := by
  unfold predList
  rw [List.mem_map]
  constructor
  · rintro ⟨e, he, rfl⟩
    have htgt := (hwf.inMem v vrec hv e).mp he
    obtain ⟨ed, hed, ht⟩ := htgt
    obtain ⟨⟨a, ha, -⟩, -⟩ := hwf.endpoints e ed hed
    refine ⟨e, ⟨ed, hed, ht⟩, ⟨ed, hed, ?_⟩⟩
    simp [farEndpoint, hed, ha]
  · rintro ⟨e, htgt, ⟨ed, hed, hs⟩⟩
    refine ⟨e, (hwf.inMem v vrec hv e).mpr htgt, ?_⟩
    simp [farEndpoint, hed, hs]

theorem adjacent_vertices_mem_iff {VP EP : Type} {g : IncidenceList VP EP}
    (hwf : StorageWf g) (directed : Bool) {v : Nat} {vrec : Vertex VP}
    (hv : g.vertices.get v = some vrec) {ws : List Nat}
    (hws : g.adjacent_vertices directed v = some ws) (x : Nat) :
    x ∈ ws ↔ (∃ e, srcIs g e v ∧ tgtIs g e x) ∨
      (directed = false ∧ ∃ e, tgtIs g e v ∧ srcIs g e x) := by
  rw [adjacent_vertices_eq_sortDedup g hwf directed v vrec hv] at hws
  cases hws
  rw [mem_sortDedup]
  cases directed with
  | true =>
    rw [if_pos rfl, mem_succList hwf hv]
    simp
  | false =>
    rw [if_neg (by simp), List.mem_append, mem_succList hwf hv, mem_predList hwf hv]
    simp

/-- C7 counterexample: a reachable storage state where the adjacency
enumeration is not the successor set.  chainBroken arises from chainBase
by remove_edge of the non-head edge 1; because the chain re-splice branch
of remove_edge is dead code, vertex 0's outgoing chain is truncated at
the vacated slot, and adjacent_vertices(0) returns [3] although edge 0
(0 → 1) is live, so the live successor 1 is missed. -/
theorem adjacent_vertices_misses_live_successor :
    IncidenceList.remove_edge chainBase 1 = some (some (), chainBroken) ∧
      chainBroken.edges.get 0 = some ⟨some 0, (), some 1, none, none⟩ ∧
      (chainBroken.vertices.get 0).isSome = true ∧
      IncidenceList.adjacent_vertices chainBroken true 0 = some [3] ∧
      (1 : Nat) ∉ ([3] : List Nat) :=
  ⟨rfl, rfl, rfl, rfl, by decide⟩

/-- C7 amended: for any storage whose incidence chains are exact
(StorageWf: live edges have live endpoints, and each live vertex's
outgoing and incoming chains terminate and hold exactly the live edges
with that source and target — true of insertion-built storages but not
preserved by remove_edge, whose chain re-splice branch is dead code) and
any live vertex, the adjacency enumeration succeeds and is strictly
sorted (hence duplicate-free); for directed storage its members are
exactly the successors through some live edge, for undirected storage
exactly the union of successors and predecessors, and for undirected
storage membership is symmetric. -/
theorem adjacent_vertices_characterization {VP EP : Type} (g : IncidenceList VP EP)
    (hwf : StorageWf g) (directed : Bool) (v : Nat) (vrec : Vertex VP)
    (hv : g.vertices.get v = some vrec) :
    ∃ vs, g.adjacent_vertices directed v = some vs ∧ vs.Pairwise (· < ·) ∧
      (∀ w, w ∈ vs ↔ (∃ e, srcIs g e v ∧ tgtIs g e w) ∨
        (directed = false ∧ ∃ e, tgtIs g e v ∧ srcIs g e w)) ∧
      (directed = false → ∀ w wrec, g.vertices.get w = some wrec →
        ∀ ws, g.adjacent_vertices false w = some ws → (w ∈ vs ↔ v ∈ ws)) := by
  have hav := adjacent_vertices_eq_sortDedup g hwf directed v vrec hv
  refine ⟨_, hav, pairwise_sortDedup _, ?_, ?_⟩
  · exact adjacent_vertices_mem_iff hwf directed hv hav
  · rintro rfl w wrec hw ws hws
    rw [adjacent_vertices_mem_iff hwf false hv hav w,
      adjacent_vertices_mem_iff hwf false hw hws v]
    constructor
    · rintro (⟨e, hs, ht⟩ | ⟨-, e, ht, hs⟩)
      · exact Or.inr ⟨rfl, e, ht, hs⟩
      · exact Or.inl ⟨e, hs, ht⟩
    · rintro (⟨e, hs, ht⟩ | ⟨-, e, ht, hs⟩)
      · exact Or.inr ⟨rfl, e, ht, hs⟩
      · exact Or.inl ⟨e, hs, ht⟩

theorem c8okGraph_wf : StorageWf c8okGraph := by
  constructor
  · intro e ed h
    have hlt : e < 2 := Slab.get_some_lt h
    interval_cases e
    · rw [show c8okGraph.edges.get 0 = some ⟨some 0, (), some 1, none, none⟩ from rfl] at h
      injection h with h
      subst h
      exact ⟨⟨0, rfl, rfl⟩, ⟨1, rfl, rfl⟩⟩
    · rw [show c8okGraph.edges.get 1 = some ⟨some 1, (), some 0, none, none⟩ from rfl] at h
      injection h with h
      subst h
      exact ⟨⟨1, rfl, rfl⟩, ⟨0, rfl, rfl⟩⟩
  · intro v vrec h
    have hlt : v < 2 := Slab.get_some_lt h
    interval_cases v
    · rw [show c8okGraph.vertices.get 0 = some ⟨some 1, 5, some 0⟩ from rfl] at h
      injection h with h
      subst h
      rfl
    · rw [show c8okGraph.vertices.get 1 = some ⟨some 0, 6, some 1⟩ from rfl] at h
      injection h with h
      subst h
      rfl
  · intro v vrec h e
    have hlt : v < 2 := Slab.get_some_lt h
    interval_cases v
    · rw [show c8okGraph.vertices.get 0 = some ⟨some 1, 5, some 0⟩ from rfl] at h
      injection h with h
      subst h
      constructor
      · intro he
        rw [show outChainOf c8okGraph ⟨some 1, 5, some 0⟩ = [0] from rfl] at he
        rcases List.mem_singleton.mp he with rfl
        exact ⟨⟨some 0, (), some 1, none, none⟩, rfl, rfl⟩
      · rintro ⟨ed, hed, hs⟩
        have helt : e < 2 := Slab.get_some_lt hed
        interval_cases e
        · rw [show outChainOf c8okGraph ⟨some 1, 5, some 0⟩ = [0] from rfl]
          exact List.mem_singleton.mpr rfl
        · rw [show c8okGraph.edges.get 1 = some ⟨some 1, (), some 0, none, none⟩
            from rfl] at hed
          injection hed with hed
          subst hed
          exact absurd hs (by decide)
    · rw [show c8okGraph.vertices.get 1 = some ⟨some 0, 6, some 1⟩ from rfl] at h
      injection h with h
      subst h
      constructor
      · intro he
        rw [show outChainOf c8okGraph ⟨some 0, 6, some 1⟩ = [1] from rfl] at he
        rcases List.mem_singleton.mp he with rfl
        exact ⟨⟨some 1, (), some 0, none, none⟩, rfl, rfl⟩
      · rintro ⟨ed, hed, hs⟩
        have helt : e < 2 := Slab.get_some_lt hed
        interval_cases e
        · rw [show c8okGraph.edges.get 0 = some ⟨some 0, (), some 1, none, none⟩
            from rfl] at hed
          injection hed with hed
          subst hed
          exact absurd hs (by decide)
        · rw [show outChainOf c8okGraph ⟨some 0, 6, some 1⟩ = [1] from rfl]
          exact List.mem_singleton.mpr rfl
  · intro v vrec h
    have hlt : v < 2 := Slab.get_some_lt h
    interval_cases v
    · rw [show c8okGraph.vertices.get 0 = some ⟨some 1, 5, some 0⟩ from rfl] at h
      injection h with h
      subst h
      rfl
    · rw [show c8okGraph.vertices.get 1 = some ⟨some 0, 6, some 1⟩ from rfl] at h
      injection h with h
      subst h
      rfl
  · intro v vrec h e
    have hlt : v < 2 := Slab.get_some_lt h
    interval_cases v
    · rw [show c8okGraph.vertices.get 0 = some ⟨some 1, 5, some 0⟩ from rfl] at h
      injection h with h
      subst h
      constructor
      · intro he
        rw [show inChainOf c8okGraph ⟨some 1, 5, some 0⟩ = [1] from rfl] at he
        rcases List.mem_singleton.mp he with rfl
        exact ⟨⟨some 1, (), some 0, none, none⟩, rfl, rfl⟩
      · rintro ⟨ed, hed, ht⟩
        have helt : e < 2 := Slab.get_some_lt hed
        interval_cases e
        · rw [show c8okGraph.edges.get 0 = some ⟨some 0, (), some 1, none, none⟩
            from rfl] at hed
          injection hed with hed
          subst hed
          exact absurd ht (by decide)
        · rw [show inChainOf c8okGraph ⟨some 1, 5, some 0⟩ = [1] from rfl]
          exact List.mem_singleton.mpr rfl
    · rw [show c8okGraph.vertices.get 1 = some ⟨some 0, 6, some 1⟩ from rfl] at h
      injection h with h
      subst h
      constructor
      · intro he
        rw [show inChainOf c8okGraph ⟨some 0, 6, some 1⟩ = [0] from rfl] at he
        rcases List.mem_singleton.mp he with rfl
        exact ⟨⟨some 0, (), some 1, none, none⟩, rfl, rfl⟩
      · rintro ⟨ed, hed, ht⟩
        have helt : e < 2 := Slab.get_some_lt hed
        interval_cases e
        · rw [show inChainOf c8okGraph ⟨some 0, 6, some 1⟩ = [0] from rfl]
          exact List.mem_singleton.mpr rfl
        · rw [show c8okGraph.edges.get 1 = some ⟨some 1, (), some 0, none, none⟩
            from rfl] at hed
          injection hed with hed
          subst hed
          exact absurd ht (by decide)

/-! ## Association-list lemmas -/

theorem lookupKey_cons_self {α : Type} (w : Nat) (v : α) (ps : List (Nat × α)) :
    lookupKey ((w, v) :: ps) w = some v := by
  show (if w = w then some v else lookupKey ps w) = some v
  rw [if_pos rfl]

theorem lookupKey_cons_ne {α : Type} (w : Nat) (v : α) (ps : List (Nat × α)) (k : Nat)
    (h : k ≠ w) : lookupKey ((w, v) :: ps) k = lookupKey ps k := by
  show (if w = k then some v else lookupKey ps k) = lookupKey ps k
  rw [if_neg (fun hh => h hh.symm)]

theorem lookupKey_append_some {α : Type} {l₁ : List (Nat × α)} (l₂ : List (Nat × α))
    {k : Nat} {x : α} (h : lookupKey l₁ k = some x) :
    lookupKey (l₁ ++ l₂) k = some x := by
  induction l₁ with
  | nil => simp [lookupKey] at h
  | cons a l ih =>
    obtain ⟨w, v⟩ := a
    by_cases hw : w = k
    · rw [show lookupKey ((w, v) :: l ++ l₂) k =
        (if w = k then some v else lookupKey (l ++ l₂) k) from rfl, if_pos hw]
      rw [show lookupKey ((w, v) :: l) k =
        (if w = k then some v else lookupKey l k) from rfl, if_pos hw] at h
      exact h
    · rw [show lookupKey ((w, v) :: l ++ l₂) k =
        (if w = k then some v else lookupKey (l ++ l₂) k) from rfl, if_neg hw]
      rw [show lookupKey ((w, v) :: l) k =
        (if w = k then some v else lookupKey l k) from rfl, if_neg hw] at h
      exact ih h

theorem lookupKey_append_none {α : Type} {l₁ : List (Nat × α)} (l₂ : List (Nat × α))
    {k : Nat} (h : lookupKey l₁ k = none) :
    lookupKey (l₁ ++ l₂) k = lookupKey l₂ k := by
  induction l₁ with
  | nil => rfl
  | cons a l ih =>
    obtain ⟨w, v⟩ := a
    by_cases hw : w = k
    · rw [show lookupKey ((w, v) :: l) k =
        (if w = k then some v else lookupKey l k) from rfl, if_pos hw] at h
      simp at h
    · rw [show lookupKey ((w, v) :: l ++ l₂) k =
        (if w = k then some v else lookupKey (l ++ l₂) k) from rfl, if_neg hw]
      rw [show lookupKey ((w, v) :: l) k =
        (if w = k then some v else lookupKey l k) from rfl, if_neg hw] at h
      exact ih h

theorem lookupKey_map_const {α : Type} (v : α) :
    ∀ (l : List Nat) (k : Nat),
      lookupKey (l.map (fun w => (w, v))) k = if k ∈ l then some v else none := by
  intro l
  induction l with
  | nil => intro k; simp [lookupKey]
  | cons x xs ih =>
    intro k
    rw [List.map_cons]
    rw [show lookupKey ((x, v) :: xs.map (fun w => (w, v))) k =
      (if x = k then some v else lookupKey (xs.map (fun w => (w, v))) k) from rfl]
    by_cases hx : x = k
    · subst hx
      rw [if_pos rfl, if_pos (List.mem_cons_self _ _)]
    · rw [if_neg hx, ih]
      by_cases hk : k ∈ xs
      · rw [if_pos hk, if_pos (List.mem_cons_of_mem _ hk)]
      · rw [if_neg hk, if_neg (by
          intro hc
          rcases List.mem_cons.mp hc with rfl | hc
          · exact hx rfl
          · exact hk hc)]

theorem lookupKey_isSome_of_mem_keys {α : Type} :
    ∀ (ps : List (Nat × α)) (k : Nat), k ∈ assocKeys ps →
      (lookupKey ps k).isSome = true := by
  intro ps
  induction ps with
  | nil => intro k hk; simp [assocKeys] at hk
  | cons a l ih =>
    intro k hk
    obtain ⟨w, v⟩ := a
    rw [show lookupKey ((w, v) :: l) k =
      (if w = k then some v else lookupKey l k) from rfl]
    by_cases hw : w = k
    · rw [if_pos hw]; rfl
    · rw [if_neg hw]
      rcases List.mem_cons.mp hk with h | h
      · exact absurd h.symm hw
      · exact ih k h

theorem mem_keys_of_lookupKey_some {α : Type} :
    ∀ (ps : List (Nat × α)) (k : Nat) (x : α), lookupKey ps k = some x →
      k ∈ assocKeys ps := by
  intro ps
  induction ps with
  | nil => intro k x h; simp [lookupKey] at h
  | cons a l ih =>
    intro k x h
    obtain ⟨w, v⟩ := a
    rw [show lookupKey ((w, v) :: l) k =
      (if w = k then some v else lookupKey l k) from rfl] at h
    by_cases hw : w = k
    · subst hw
      exact List.mem_cons_self _ _
    · rw [if_neg hw] at h
      exact List.mem_cons_of_mem _ (ih k x h)

/-- Parent-map lookup after one vertex expansion: the fresh targets map to
the expanded vertex, everything else is unchanged. -/
theorem lookup_after_fresh {v : Nat} (fresh : List Nat) (ps : List (Nat × Nat))
    (k : Nat) :
    lookupKey ((fresh.map (fun w => (w, v))).reverse ++ ps) k =
      if k ∈ fresh then some v else lookupKey ps k := by
  have hrev : (fresh.map (fun w => (w, v))).reverse =
      fresh.reverse.map (fun w => (w, v)) := by
    rw [List.map_reverse]
  rw [hrev]
  by_cases hk : k ∈ fresh
  · rw [if_pos hk]
    exact lookupKey_append_some ps (by
      rw [lookupKey_map_const, if_pos (List.mem_reverse.mpr hk)])
  · rw [if_neg hk]
    exact lookupKey_append_none ps (by
      rw [lookupKey_map_const, if_neg (fun hc => hk (List.mem_reverse.mp hc))])

theorem adjacent_vertices_characterization_witness :
    ∃ vs, c8okGraph.adjacent_vertices false 0 = some vs ∧ vs.Pairwise (· < ·) ∧
      (∀ w, w ∈ vs ↔ (∃ e, srcIs c8okGraph e 0 ∧ tgtIs c8okGraph e w) ∨
        (false = false ∧ ∃ e, tgtIs c8okGraph e 0 ∧ srcIs c8okGraph e w)) ∧
      (false = false → ∀ w wrec, c8okGraph.vertices.get w = some wrec →
        ∀ ws, c8okGraph.adjacent_vertices false w = some ws → (w ∈ vs ↔ 0 ∈ ws)) :=
  adjacent_vertices_characterization c8okGraph c8okGraph_wf false 0 ⟨some 1, 5, some 0⟩ rfl

/-! ## The BFS/DFS inner loop, characterized (C6 amended) -/

theorem innerEventsPerSpec_congr (g : AGraph) (start v : Nat) :
    ∀ (ws : List Nat) (ps₁ ps₂ : List (Nat × Nat)),
      (∀ x ∈ ws, lookupKey ps₁ x = lookupKey ps₂ x) →
      innerEventsPerSpec g start v ps₁ ws = innerEventsPerSpec g start v ps₂ ws := by
  intro ws
  induction ws with
  | nil => intro _ _ _; rfl
  | cons w ws ih =>
    intro ps₁ ps₂ h
    show (Event.examineEdge (g.edgeOf v w) :: _) ++ _ = (Event.examineEdge _ :: _) ++ _
    rw [h w (List.mem_cons_self _ _), ih ps₁ ps₂
      (fun x hx => h x (List.mem_cons_of_mem _ hx))]

theorem searchInner_fold (g : AGraph) (start v : Nat) :
    ∀ (ws : List Nat) (st : SearchState), ws.Nodup →
      ws.foldl (searchVisitAdj g start v) st =
        { fringe := st.fringe ++ ws.filter (freshNonStart st.parents start)
          parents := ((ws.filter (freshNonStart st.parents start)).map
            (fun w => (w, v))).reverse ++ st.parents
          events := st.events ++ innerEventsPerSpec g start v st.parents ws } := by
  intro ws
  induction ws with
  | nil =>
    intro st _
    cases st
    simp [innerEventsPerSpec]
  | cons w ws ih =>
    intro st hnd
    obtain ⟨hw, hnd'⟩ := List.nodup_cons.mp hnd
    show ws.foldl (searchVisitAdj g start v) (searchVisitAdj g start v st w) = _
    by_cases hws : w = start
    · have h1 : searchVisitAdj g start v st w =
          emit st [Event.examineEdge (g.edgeOf v w)] := by
        simp [searchVisitAdj, emit, hws]
      have hf : freshNonStart st.parents start start = false := by
        simp [freshNonStart]
      rw [h1, ih _ hnd']
      simp [emit, innerEventsPerSpec, hf, hws, List.filter_cons, List.append_assoc]
    · cases hlk : lookupKey st.parents w with
      | some u =>
        have h1 : searchVisitAdj g start v st w =
            { st with events := st.events ++ [Event.examineEdge (g.edgeOf v w)] ++
                [Event.nonTreeEdge (g.edgeOf v w)] } := by
          simp [searchVisitAdj, emit, hws, hlk]
        have hf : freshNonStart st.parents start w = false := by
          simp [freshNonStart, hlk]
        rw [h1, ih _ hnd']
        simp [innerEventsPerSpec, hf, hws, hlk, List.filter_cons, List.append_assoc]
      | none =>
        have h1 : searchVisitAdj g start v st w =
            { fringe := st.fringe ++ [w]
              parents := (w, v) :: st.parents
              events := st.events ++ [Event.examineEdge (g.edgeOf v w)] ++
                [Event.treeEdge (g.edgeOf v w), Event.discoverVertex w] } := by
          simp [searchVisitAdj, emit, hws, hlk, pushFringe]
        have hf : freshNonStart st.parents start w = true := by
          simp [freshNonStart, hws, hlk]
        have hcongrF : ws.filter (freshNonStart ((w, v) :: st.parents) start) =
            ws.filter (freshNonStart st.parents start) := by
          apply List.filter_congr
          intro x hx
          have hxw : x ≠ w := fun h => hw (h ▸ hx)
          simp [freshNonStart, lookupKey_cons_ne w v st.parents x hxw]
        have hcongrE : innerEventsPerSpec g start v ((w, v) :: st.parents) ws =
            innerEventsPerSpec g start v st.parents ws := by
          apply innerEventsPerSpec_congr
          intro x hx
          exact lookupKey_cons_ne w v st.parents x (fun h => hw (h ▸ hx))
        rw [h1, ih _ hnd']
        simp only [hcongrF, hcongrE]
        simp [List.filter_cons, hf, hws, hlk, innerEventsPerSpec, List.append_assoc,
          List.reverse_cons]

/-! ## Parent chains and paths (towards C4/C5) -/

theorem pchain_uniq (ps : List (Nat × Nat)) (start : Nat)
    (hstart : lookupKey ps start = none) :
    ∀ {w n}, PChain ps start w n → ∀ {m}, PChain ps start w m → n = m := by
  intro w n h
  induction h with
  | zero =>
    intro m hm
    cases hm with
    | zero => rfl
    | succ h' hp' => rw [hstart] at h'; exact absurd h' (by simp)
  | @succ w' u n' h hp ih =>
    intro m hm
    cases hm with
    | zero => rw [hstart] at h; exact absurd h (by simp)
    | @succ _ u' m' h' hp' =>
      rw [h] at h'
      injection h' with h''
      subst h''
      have := ih hp'
      omega

theorem pchain_mono (ps ps' : List (Nat × Nat)) (start : Nat)
    (hmono : ∀ k x, lookupKey ps k = some x → lookupKey ps' k = some x) :
    ∀ {w n}, PChain ps start w n → PChain ps' start w n := by
  intro w n h
  induction h with
  | zero => exact PChain.zero
  | succ h hp ih => exact PChain.succ (hmono _ _ h) ih

theorem pchain_nodes (ps : List (Nat × Nat)) (start : Nat)
    (hstart : lookupKey ps start = none) :
    ∀ {w n}, PChain ps start w n →
      ∃ ks : List Nat, ks.Nodup ∧ ks.length = n ∧
        ∀ k ∈ ks, (lookupKey ps k).isSome = true ∧
          ∃ m, m ≤ n ∧ PChain ps start k m := by
  intro w n h
  induction h with
  | zero => exact ⟨[], List.nodup_nil, rfl, by simp⟩
  | @succ w' u n' h hp ih =>
    obtain ⟨ks, hnd, hlen, hmem⟩ := ih
    refine ⟨w' :: ks, ?_, by simp [hlen], ?_⟩
    · rw [List.nodup_cons]
      refine ⟨?_, hnd⟩
      intro hin
      obtain ⟨-, m, hm, hch⟩ := hmem w' hin
      have := pchain_uniq ps start hstart (PChain.succ h hp) hch
      omega
    · intro k hk
      rcases List.mem_cons.mp hk with rfl | hk
      · exact ⟨by simp [h], n' + 1, le_refl _, PChain.succ h hp⟩
      · obtain ⟨hs, m, hm, hch⟩ := hmem k hk
        exact ⟨hs, m, by omega, hch⟩

theorem pchain_le_length (ps : List (Nat × Nat)) (start : Nat)
    (hstart : lookupKey ps start = none) {w n : Nat} (h : PChain ps start w n) :
    n ≤ ps.length := by
  obtain ⟨ks, hnd, hlen, hmem⟩ := pchain_nodes ps start hstart h
  have hsub : ∀ k ∈ ks, k ∈ assocKeys ps := by
    intro k hk
    obtain ⟨hs, -⟩ := hmem k hk
    obtain ⟨x, hx⟩ := Option.isSome_iff_exists.mp hs
    exact mem_keys_of_lookupKey_some ps k x hx
  have h1 : ks.toFinset.card = ks.length := List.toFinset_card_of_nodup hnd
  have h2 : ks.toFinset ⊆ (assocKeys ps).toFinset := by
    intro a ha
    exact List.mem_toFinset.mpr (hsub a (List.mem_toFinset.mp ha))
  have h3 := Finset.card_le_card h2
  have h4 := (assocKeys ps).toFinset_card_le
  have h5 : (assocKeys ps).length = ps.length := List.length_map _ _
  omega

theorem isPath_snoc (g : AGraph) {s u w : Nat} {p : List Nat}
    (hp : IsPath g s u p) (hw : w ∈ g.adj u) : IsPath g s w (p ++ [w]) := by
  obtain ⟨hh, hl, hc⟩ := hp
  refine ⟨?_, List.getLast?_concat _, ?_⟩
  · cases hp0 : p with
    | nil => rw [hp0] at hh; simp at hh
    | cons a t =>
      rw [hp0] at hh
      simpa using hh
  · refine List.chain'_append.mpr ⟨hc, List.chain'_singleton _, ?_⟩
    intro x hx y hy
    rw [hl] at hx
    simp only [Option.mem_def, Option.some_inj] at hx
    simp only [List.head?_cons, Option.mem_def, Option.some_inj] at hy
    subst hx
    subst hy
    exact hw

theorem pchain_chain_list (g : AGraph) (ps : List (Nat × Nat)) (start : Nat)
    (hadj : ∀ w u, lookupKey ps w = some u → w ∈ g.adj u)
    (hstart : lookupKey ps start = none) :
    ∀ {w n}, PChain ps start w n →
      ∃ l, ChainStops ps w l ∧ l.length = n + 1 ∧ IsPath g start w l.reverse := by
  intro w n h
  induction h with
  | zero =>
    exact ⟨[start], ChainStops.root start hstart, rfl,
      ⟨rfl, rfl, List.chain'_singleton start⟩⟩
  | @succ w' u n' h hp ih =>
    obtain ⟨l, hcs, hlen, hpath⟩ := ih
    refine ⟨w' :: l, ChainStops.step w' u l h hcs, by simp [hlen], ?_⟩
    rw [List.reverse_cons]
    exact isPath_snoc g hpath (hadj w' u h)

theorem pchain_reverse_path (g : AGraph) (ps : List (Nat × Nat)) (start : Nat)
    (hadj : ∀ w u, lookupKey ps w = some u → w ∈ g.adj u)
    (hstart : lookupKey ps start = none) {w n : Nat} (h : PChain ps start w n) :
    ∃ p, reverse_path ps w (ps.length + 1) = some p ∧ IsPath g start w p ∧
      p.length = n + 1 := by
  obtain ⟨l, hcs, hlen, hpath⟩ := pchain_chain_list g ps start hadj hstart h
  have hb := pchain_le_length ps start hstart h
  refine ⟨l.reverse, ?_, hpath, by simp [hlen]⟩
  exact reverse_path_of_chainStops ps w l hcs (ps.length + 1) (by omega)

theorem forall₂_map_const {R : Nat → Nat → Prop} (c : Nat) :
    ∀ (l : List Nat), (∀ x ∈ l, R x c) → List.Forall₂ R l (l.map (fun _ => c)) := by
  intro l
  induction l with
  | nil => intro _; exact List.Forall₂.nil
  | cons x xs ih =>
    intro h
    exact List.Forall₂.cons (h x (List.mem_cons_self _ _))
      (ih (fun y hy => h y (List.mem_cons_of_mem _ hy)))

theorem forall₂_mem_left {R : Nat → Nat → Prop} :
    ∀ {l₁ l₂ : List Nat}, List.Forall₂ R l₁ l₂ → ∀ x ∈ l₁, ∃ y ∈ l₂, R x y := by
  intro l₁ l₂ h
  induction h with
  | nil => intro x hx; simp at hx
  | cons hr hrest ih =>
    intro x hx
    rcases List.mem_cons.mp hx with rfl | hx
    · exact ⟨_, List.mem_cons_self _ _, hr⟩
    · obtain ⟨y, hy, hxy⟩ := ih x hx
      exact ⟨y, List.mem_cons_of_mem _ hy, hxy⟩

/-- C6 amended: while a dequeued vertex v is expanded, exactly one
edge-examined event is emitted per distinct adjacent vertex (for the
representative edge of that endpoint pair, not once per parallel edge);
each non-start target is classified tree — parent recorded, discovered,
enqueued — exactly when it has no parent entry yet and non-tree
otherwise, while a target equal to the start is examined but never
classified and never enqueued. -/
theorem searchInner_per_distinct_adjacency (g : AGraph) (start v : Nat)
    (st : SearchState) (hnd : (g.adj v).Nodup) :
    searchInner g start v st =
      { fringe := st.fringe ++ freshList g start v st.parents
        parents := ((freshList g start v st.parents).map (fun w => (w, v))).reverse ++
          st.parents
        events := st.events ++ innerEventsPerSpec g start v st.parents (g.adj v) } :=
  searchInner_fold g start v (g.adj v) st hnd

theorem searchInner_per_distinct_adjacency_witness :
    ((aGraphOf c6graph true).adj 0).Nodup ∧
      searchInner (aGraphOf c6graph true) 0 0 (initState (aGraphOf c6graph true) 0) =
        { fringe := (initState (aGraphOf c6graph true) 0).fringe ++
            freshList (aGraphOf c6graph true) 0 0
              (initState (aGraphOf c6graph true) 0).parents
          parents := ((freshList (aGraphOf c6graph true) 0 0
              (initState (aGraphOf c6graph true) 0).parents).map
              (fun w => (w, 0))).reverse ++
            (initState (aGraphOf c6graph true) 0).parents
          events := (initState (aGraphOf c6graph true) 0).events ++
            innerEventsPerSpec (aGraphOf c6graph true) 0 0
              (initState (aGraphOf c6graph true) 0).parents
              ((aGraphOf c6graph true).adj 0) } :=
  ⟨by decide, searchInner_per_distinct_adjacency (aGraphOf c6graph true) 0 0
    (initState (aGraphOf c6graph true) 0) (by decide)⟩

/-! ## The frontier-crossing bound -/

/-- Any valid path from the start to an undiscovered vertex crosses the
frontier, so its edge count exceeds the least depth d of the frontier. -/
theorem crossing_bound (g : AGraph) (start : Nat) (isGoal : Nat → Bool)
    (st : SearchState) (hinv : InvCore g start isGoal st)
    (hmind : ∀ w m, InP st start w → PChain st.parents start w m →
      IsLeastDist g start w m)
    (d : Nat)
    (hfront : ∀ y ∈ st.fringe, ∀ m, PChain st.parents start y m → d ≤ m) :
    ∀ (q : List Nat) {z : Nat}, IsPath g start z q → ¬InP st start z →
      d + 2 ≤ q.length := by
  intro q
  induction q using List.reverseRecOn with
  | nil =>
    intro z hq _
    obtain ⟨hh, -, -⟩ := hq
    simp at hh
  | append_singleton q' a ih =>
    intro z hq hz
    obtain ⟨hh, hl, hc⟩ := hq
    have haz : a = z := by
      rw [List.getLast?_concat] at hl
      exact Option.some_inj.mp hl
    subst haz
    cases q' with
    | nil =>
      simp only [List.nil_append, List.head?_cons, Option.some_inj] at hh
      exact absurd (Or.inl hh) hz
    | cons b t =>
      have hb : b = start := by simpa using hh
      obtain ⟨hc1, -, hlink⟩ := List.chain'_append.mp hc
      have hne : (b :: t) ≠ [] := by simp
      obtain ⟨y, hy⟩ : ∃ y, (b :: t).getLast? = some y :=
        ⟨(b :: t).getLast hne, List.getLast?_eq_getLast _ hne⟩
      have hadjya : a ∈ g.adj y :=
        hlink y (Option.mem_def.mpr hy) a (Option.mem_def.mpr rfl)
      have hpy : IsPath g start y (b :: t) := ⟨by simp [hb], hy, hc1⟩
      by_cases hyP : InP st start y
      · by_cases hyf : y ∈ st.fringe
        · obtain ⟨m, hm⟩ := hinv.chain y hyP
          have h1 : m + 1 ≤ (b :: t).length := (hmind y m hyP hm).2 _ hpy
          have h2 : d ≤ m := hfront y hyf m hm
          simp only [List.length_append, List.length_cons, List.length_singleton]
          simp only [List.length_cons] at h1
          omega
        · exact absurd (hinv.expanded y ⟨hyP, hyf⟩ a hadjya) hz
      · have h1 := ih hpy hyP
        simp only [List.length_append, List.length_cons, List.length_singleton]
        simp only [List.length_cons] at h1
        omega

/-! ## One expansion of the popped vertex -/

theorem mem_freshList {g : AGraph} {start v x : Nat} {ps : List (Nat × Nat)} :
    x ∈ freshList g start v ps ↔
      x ∈ g.adj v ∧ x ≠ start ∧ lookupKey ps x = none := by
  unfold freshList freshNonStart
  rw [List.mem_filter]
  constructor
  · rintro ⟨h1, h2⟩
    rw [Bool.and_eq_true, decide_eq_true_eq, Bool.not_eq_true'] at h2
    exact ⟨h1, h2.1, by
      rcases h0 : lookupKey ps x with - | y
      · rfl
      · rw [h0] at h2; simp at h2⟩
  · rintro ⟨h1, h2, h3⟩
    refine ⟨h1, ?_⟩
    rw [Bool.and_eq_true, decide_eq_true_eq, Bool.not_eq_true']
    exact ⟨h2, by rw [h3]; rfl⟩

theorem bodyState_lookup (g : AGraph) (start v : Nat) (st : SearchState)
    (rest : List Nat) (k : Nat) :
    lookupKey (bodyState g start v st rest).parents k =
      if k ∈ freshList g start v st.parents then some v
      else lookupKey st.parents k :=
  lookup_after_fresh _ _ _

theorem inP_bodyState (g : AGraph) (start v : Nat) (st : SearchState)
    (rest : List Nat) (u : Nat) :
    InP (bodyState g start v st rest) start u ↔
      u ∈ freshList g start v st.parents ∨ InP st start u := by
  unfold InP
  rw [bodyState_lookup]
  by_cases hu : u ∈ freshList g start v st.parents
  · simp [hu]
  · simp [hu]

theorem searchInner_body_eq (g : AGraph) (start v : Nat) (st : SearchState)
    (rest : List Nat) (hnd : (g.adj v).Nodup) :
    emit (searchInner g start v (emit { st with fringe := rest }
      [Event.examineVertex v])) [Event.finishVertex v] =
      bodyState g start v st rest := by
  show emit ((g.adj v).foldl (searchVisitAdj g start v) _) _ = _
  rw [searchInner_fold g start v (g.adj v) _ hnd]
  rfl

theorem popFringe_eq_none {disc : Discipline} {l : List Nat} :
    popFringe disc l = none ↔ l = [] := by
  constructor
  · intro h
    cases l with
    | nil => rfl
    | cons a t => cases disc <;> simp [popFringe] at h
  · rintro rfl
    cases disc <;> rfl

theorem popFringe_fifo_eq {l : List Nat} {v : Nat} {rest : List Nat}
    (h : popFringe Discipline.fifo l = some (v, rest)) : l = v :: rest := by
  cases l with
  | nil => simp [popFringe] at h
  | cons a t =>
    rw [show popFringe Discipline.fifo (a :: t) = some (a, t) from rfl] at h
    injection h with h
    have h1 : a = v := congrArg Prod.fst h
    have h2 : t = rest := congrArg Prod.snd h
    rw [h1, h2]

theorem popFringe_lifo_eq {l : List Nat} {v : Nat} {rest : List Nat}
    (h : popFringe Discipline.lifo l = some (v, rest)) : l = rest ++ [v] := by
  cases l with
  | nil => simp [popFringe] at h
  | cons a t =>
    have hne : (a :: t) ≠ [] := by simp
    rw [show popFringe Discipline.lifo (a :: t) =
      some ((a :: t).getLastD 0, (a :: t).dropLast) from rfl] at h
    injection h with h
    have hv : (a :: t).getLastD 0 = v := congrArg Prod.fst h
    have hr : (a :: t).dropLast = rest := congrArg Prod.snd h
    have h2 : (a :: t).getLastD 0 = (a :: t).getLast hne := by
      rw [List.getLastD_eq_getLast?, List.getLast?_eq_getLast _ hne]
      rfl
    have h3 := List.dropLast_append_getLast hne
    rw [← h3, hr, ← h2, hv]

theorem path_all_inP (g : AGraph) (start : Nat) (isGoal : Nat → Bool)
    (st : SearchState) (hinv : InvCore g start isGoal st) (hfr : st.fringe = []) :
    ∀ (p : List Nat) (a z : Nat), IsPath g a z p → InP st start a →
      InP st start z := by
  intro p
  induction p with
  | nil =>
    intro a z hp _
    obtain ⟨h, -, -⟩ := hp
    simp at h
  | cons x t ih =>
    intro a z hp ha
    obtain ⟨hh, hl, hc⟩ := hp
    have hax : x = a := by simpa using hh
    subst hax
    cases t with
    | nil =>
      have hzx : z = x := by simpa using hl.symm
      rw [hzx]
      exact ha
    | cons y t' =>
      have hy : y ∈ g.adj x := (List.chain'_cons.mp hc).1
      have hxproc : Processed st start x := ⟨ha, by rw [hfr]; simp⟩
      have hyP : InP st start y := hinv.expanded x hxproc y hy
      refine ih y z ⟨rfl, ?_, (List.chain'_cons.mp hc).2⟩ hyP
      rw [← hl]
      rfl

theorem countP_flip (p p' : Nat → Bool) (F : List Nat) :
    ∀ l : List Nat,
      (∀ x ∈ l, (x ∈ F → p x = true ∧ p' x = false) ∧ (x ∉ F → p' x = p x)) →
      l.countP p = l.countP p' + (l.filter (fun x => decide (x ∈ F))).length := by
  intro l
  induction l with
  | nil => intro _; rfl
  | cons x t ih =>
    intro h
    have hx := h x (List.mem_cons_self _ _)
    have ht := ih (fun y hy => h y (List.mem_cons_of_mem _ hy))
    rw [List.countP_cons, List.countP_cons, List.filter_cons]
    by_cases hxF : x ∈ F
    · obtain ⟨hp, hp'⟩ := hx.1 hxF
      simp [hp, hp', hxF, ht]
      omega
    · have heq := hx.2 hxF
      simp [heq, hxF, ht]
      omega

theorem filter_mem_length_eq (l F : List Nat) (hl : l.Nodup) (hF : F.Nodup)
    (hsub : ∀ x ∈ F, x ∈ l) :
    (l.filter (fun x => decide (x ∈ F))).length = F.length := by
  have hperm : (l.filter (fun x => decide (x ∈ F))).Perm F := by
    rw [List.perm_ext_iff_of_nodup (hl.filter _) hF]
    intro a
    rw [List.mem_filter]
    constructor
    · rintro ⟨-, h⟩
      exact of_decide_eq_true h
    · intro h
      exact ⟨hsub a h, decide_eq_true h⟩
  exact hperm.length_eq

theorem countP_lt_of_mem_false (l : List Nat) (p : Nat → Bool) (x : Nat)
    (hx : x ∈ l) (hp : p x = false) : l.countP p < l.length := by
  induction l with
  | nil => simp at hx
  | cons a t ih =>
    rw [List.countP_cons, List.length_cons]
    rcases List.mem_cons.mp hx with rfl | hx
    · rw [hp]
      have := List.countP_le_length (p := p) (l := t)
      simp only [Bool.false_eq_true, if_false]
      omega
    · have h1 := ih hx
      have : (if p a = true then 1 else 0) ≤ 1 := by
        split <;> omega
      omega

theorem pairwise_le_map_const (c : Nat) :
    ∀ l : List Nat, (l.map (fun _ => c)).Pairwise (· ≤ ·) := by
  intro l
  induction l with
  | nil => simp
  | cons x t ih =>
    rw [List.map_cons, List.pairwise_cons]
    refine ⟨?_, ih⟩
    intro b hb
    obtain ⟨y, -, rfl⟩ := List.mem_map.mp hb
    exact le_refl c

/-! ## Invariant preservation through one loop iteration -/

theorem invCore_body (g : AGraph) (start : Nat) (isGoal : Nat → Bool)
    (hcl : g.Closed) (st : SearchState) (hinv : InvCore g start isGoal st)
    (v : Nat) (rest : List Nat) (hadjnd : (g.adj v).Nodup)
    (hshape : st.fringe = v :: rest ∨ st.fringe = rest ++ [v])
    (hgoal : isGoal v = false) :
    InvCore g start isGoal (bodyState g start v st rest) := by
  have hvmem : v ∈ st.fringe := by
    rcases hshape with h | h <;> rw [h] <;> simp
  have hfr_iff : ∀ x, x ∈ st.fringe ↔ x = v ∨ x ∈ rest := by
    intro x
    rcases hshape with h | h <;> rw [h] <;> simp [List.mem_append, or_comm]
  have hrest : rest.Nodup ∧ v ∉ rest := by
    have hnd := hinv.fringeNodup
    rcases hshape with h | h <;> rw [h] at hnd
    · exact ⟨(List.nodup_cons.mp hnd).2, (List.nodup_cons.mp hnd).1⟩
    · have h2 := List.nodup_append.mp hnd
      exact ⟨h2.1, fun hc => h2.2.2 hc (List.mem_singleton.mpr rfl)⟩
  have hvInP : InP st start v := hinv.fringeP v hvmem
  have hvvert : v ∈ g.verts := hinv.fringeVerts v hvmem
  have hFsub : ∀ x ∈ freshList g start v st.parents,
      x ∈ g.adj v ∧ x ≠ start ∧ lookupKey st.parents x = none :=
    fun x hx => mem_freshList.mp hx
  have hFnd : (freshList g start v st.parents).Nodup := hadjnd.filter _
  have hlk := bodyState_lookup g start v st rest
  have hmono : ∀ k x, lookupKey st.parents k = some x →
      lookupKey (bodyState g start v st rest).parents k = some x := by
    intro k x h
    have hk : k ∉ freshList g start v st.parents := by
      intro hc
      rw [(hFsub k hc).2.2] at h
      exact Option.noConfusion h
    rw [hlk, if_neg hk]
    exact h
  have hInPmono : ∀ u, InP st start u →
      InP (bodyState g start v st rest) start u := by
    intro u hu
    rcases hu with rfl | hu
    · exact Or.inl rfl
    · obtain ⟨x, hx⟩ := Option.ne_none_iff_exists'.mp hu
      exact Or.inr (by rw [hmono u x hx]; simp)
  have hFInP : ∀ x ∈ freshList g start v st.parents,
      InP (bodyState g start v st rest) start x := by
    intro x hx
    exact Or.inr (by rw [hlk, if_pos hx]; simp)
  have hFnotold : ∀ x ∈ freshList g start v st.parents, ¬InP st start x := by
    intro x hx hc
    rcases hc with rfl | hc
    · exact (hFsub x hx).2.1 rfl
    · exact hc (hFsub x hx).2.2
  constructor
  · -- startKey
    rw [hlk, if_neg (fun hc => (hFsub start hc).2.1 rfl)]
    exact hinv.startKey
  · -- keysNodup
    show ((((freshList g start v st.parents).map (fun w => (w, v))).reverse ++
      st.parents).map Prod.fst).Nodup
    rw [List.map_append, List.map_reverse, List.map_map]
    have hid : (Prod.fst ∘ fun w : Nat => ((w, v) : Nat × Nat)) = id := rfl
    rw [hid, List.map_id, List.nodup_append]
    refine ⟨List.nodup_reverse.mpr hFnd, hinv.keysNodup, ?_⟩
    intro a ha hc
    have haF := List.mem_reverse.mp ha
    have := lookupKey_isSome_of_mem_keys st.parents a hc
    rw [(hFsub a haF).2.2] at this
    exact Bool.noConfusion this
  · -- parentAdj
    intro w u h
    rw [hlk] at h
    by_cases hw : w ∈ freshList g start v st.parents
    · rw [if_pos hw] at h
      injection h with h
      subst h
      exact ⟨(hFsub w hw).1, (hFsub w hw).2.1⟩
    · rw [if_neg hw] at h
      exact hinv.parentAdj w u h
  · -- chain
    intro w hw
    rcases (inP_bodyState g start v st rest w).mp hw with hwF | hwold
    · obtain ⟨nv, hnv⟩ := hinv.chain v hvInP
      exact ⟨nv + 1, PChain.succ (by rw [hlk, if_pos hwF])
        (pchain_mono _ _ _ hmono hnv)⟩
    · obtain ⟨n, hn⟩ := hinv.chain w hwold
      exact ⟨n, pchain_mono _ _ _ hmono hn⟩
  · -- fringeP
    intro x hx
    rcases List.mem_append.mp hx with hx | hx
    · exact hInPmono x (hinv.fringeP x ((hfr_iff x).mpr (Or.inr hx)))
    · exact hFInP x hx
  · -- fringeNodup
    show (rest ++ freshList g start v st.parents).Nodup
    rw [List.nodup_append]
    refine ⟨hrest.1, hFnd, ?_⟩
    intro a ha hc
    exact hFnotold a hc (hinv.fringeP a ((hfr_iff a).mpr (Or.inr ha)))
  · -- fringeVerts
    intro x hx
    rcases List.mem_append.mp hx with hx | hx
    · exact hinv.fringeVerts x ((hfr_iff x).mpr (Or.inr hx))
    · exact hcl v hvvert x (hFsub x hx).1
  · -- keysVerts
    intro w u h
    rw [hlk] at h
    by_cases hw : w ∈ freshList g start v st.parents
    · exact hcl v hvvert w (hFsub w hw).1
    · rw [if_neg hw] at h
      exact hinv.keysVerts w u h
  · -- expanded
    intro u hu w hw
    obtain ⟨huP, hufr⟩ := hu
    have huF : u ∉ freshList g start v st.parents := fun hc =>
      hufr (List.mem_append.mpr (Or.inr hc))
    have hurest : u ∉ rest := fun hc => hufr (List.mem_append.mpr (Or.inl hc))
    have huold : InP st start u := by
      rcases (inP_bodyState g start v st rest u).mp huP with h | h
      · exact absurd h huF
      · exact h
    by_cases huv : u = v
    · subst huv
      by_cases hws : w = start
      · exact Or.inl hws
      · by_cases hlku : lookupKey st.parents w = none
        · exact hFInP w (mem_freshList.mpr ⟨hw, hws, hlku⟩)
        · exact hInPmono w (Or.inr hlku)
    · have hproc : Processed st start u := ⟨huold, fun hc => by
        rcases (hfr_iff u).mp hc with h | h
        · exact huv h
        · exact hurest h⟩
      exact hInPmono w (hinv.expanded u hproc w hw)
  · -- nogoal
    intro u hu
    obtain ⟨huP, hufr⟩ := hu
    have huF : u ∉ freshList g start v st.parents := fun hc =>
      hufr (List.mem_append.mpr (Or.inr hc))
    have hurest : u ∉ rest := fun hc => hufr (List.mem_append.mpr (Or.inl hc))
    have huold : InP st start u := by
      rcases (inP_bodyState g start v st rest u).mp huP with h | h
      · exact absurd h huF
      · exact h
    by_cases huv : u = v
    · rw [huv]
      exact hgoal
    · exact hinv.nogoal u ⟨huold, fun hc => by
        rcases (hfr_iff u).mp hc with h | h
        · exact huv h
        · exact hurest h⟩

theorem forall₂_append_pair {R : Nat → Nat → Prop} :
    ∀ {a b c d : List Nat}, List.Forall₂ R a b → List.Forall₂ R c d →
      List.Forall₂ R (a ++ c) (b ++ d) := by
  intro a b c d h1 h2
  induction h1 with
  | nil => simpa using h2
  | cons hr ht ih => exact List.Forall₂.cons hr ih

/-- In a FIFO run the popped vertex sits at the least depth of the fringe. -/
theorem fringe_front_min (g : AGraph) (start : Nat) (isGoal : Nat → Bool)
    (st : SearchState) (hinv : InvCore g start isGoal st)
    (v : Nat) (rest : List Nat) (dv : Nat) (ds' : List Nat)
    (hfifo : st.fringe = v :: rest)
    (hdv : PChain st.parents start v dv)
    (hf2' : List.Forall₂ (fun y m => PChain st.parents start y m) rest ds')
    (hpw : (dv :: ds').Pairwise (· ≤ ·)) :
    ∀ y ∈ st.fringe, ∀ m, PChain st.parents start y m → dv ≤ m := by
  intro y hy m hm
  rw [hfifo] at hy
  rcases List.mem_cons.mp hy with rfl | hy
  · have := pchain_uniq st.parents start hinv.startKey hdv hm
    omega
  · obtain ⟨dy, hdy, hchy⟩ := forall₂_mem_left hf2' y hy
    have h1 := pchain_uniq st.parents start hinv.startKey hm hchy
    have h2 := (List.pairwise_cons.mp hpw).1 dy hdy
    omega

theorem invBfs_body (g : AGraph) (start : Nat) (isGoal : Nat → Bool)
    (hcl : g.Closed) (st : SearchState)
    (hinv : InvCore g start isGoal st) (hbfs : InvBfs g start st)
    (v : Nat) (rest : List Nat) (hadjnd : (g.adj v).Nodup)
    (hfifo : st.fringe = v :: rest) (hgoal : isGoal v = false) :
    InvBfs g start (bodyState g start v st rest) := by
  obtain ⟨ds, hf2, hpw, h2lv⟩ := hbfs.depths
  rw [hfifo] at hf2
  obtain ⟨dv, ds', hdv, hf2', rfl⟩ := List.forall₂_cons_left_iff.mp hf2
  have hvmem : v ∈ st.fringe := by rw [hfifo]; simp
  have hvP : InP st start v := hinv.fringeP v hvmem
  have hstart' : lookupKey (bodyState g start v st rest).parents start = none := by
    rw [bodyState_lookup, if_neg]
    · exact hinv.startKey
    · intro hc
      exact (mem_freshList.mp hc).2.1 rfl
  have hmono : ∀ k x, lookupKey st.parents k = some x →
      lookupKey (bodyState g start v st rest).parents k = some x := by
    intro k x h
    rw [bodyState_lookup, if_neg]
    · exact h
    · intro hc
      rw [(mem_freshList.mp hc).2.2] at h
      exact Option.noConfusion h
  have hFchain : ∀ w ∈ freshList g start v st.parents,
      PChain (bodyState g start v st rest).parents start w (dv + 1) := by
    intro w hw
    exact PChain.succ (by rw [bodyState_lookup, if_pos hw])
      (pchain_mono _ _ _ hmono hdv)
  have hfront : ∀ y ∈ st.fringe, ∀ m, PChain st.parents start y m → dv ≤ m :=
    fringe_front_min g start isGoal st hinv v rest dv ds' hfifo hdv hf2' hpw
  have hbound : ∀ x, x ∈ ds' ++ (freshList g start v st.parents).map
      (fun _ => dv + 1) → dv ≤ x ∧ x ≤ dv + 1 := by
    intro x hx
    rcases List.mem_append.mp hx with hx | hx
    · exact ⟨(List.pairwise_cons.mp hpw).1 x hx,
        h2lv dv (List.mem_cons_self _ _) x (List.mem_cons_of_mem _ hx)⟩
    · obtain ⟨y, -, hyx⟩ := List.mem_map.mp hx
      subst hyx
      exact ⟨Nat.le_succ dv, Nat.le.refl⟩
  constructor
  · refine ⟨ds' ++ (freshList g start v st.parents).map (fun _ => dv + 1),
      ?_, ?_, ?_⟩
    · show List.Forall₂ _ (rest ++ freshList g start v st.parents) _
      refine forall₂_append_pair ?_ ?_
      · exact hf2'.imp (fun a b h => pchain_mono _ _ _ hmono h)
      · exact forall₂_map_const (dv + 1) _ (fun x hx => hFchain x hx)
    · rw [List.pairwise_append]
      refine ⟨(List.pairwise_cons.mp hpw).2, pairwise_le_map_const _ _, ?_⟩
      intro a ha b hb
      obtain ⟨y, -, hyb⟩ := List.mem_map.mp hb
      rw [← hyb]
      show a ≤ dv + 1
      exact h2lv dv (List.mem_cons_self _ _) a (List.mem_cons_of_mem _ ha)
    · intro a ha b hb
      have h1 := hbound a ha
      have h2 := hbound b hb
      omega
  · intro w n hw hn
    by_cases hwF : w ∈ freshList g start v st.parents
    · have hch := hFchain w hwF
      have hnval : n = dv + 1 := pchain_uniq _ start hstart' hn hch
      subst hnval
      obtain ⟨⟨p, hp, hplen⟩, -⟩ := hbfs.minDepth v dv hvP hdv
      refine ⟨⟨p ++ [w], isPath_snoc g hp (mem_freshList.mp hwF).1,
        by simp [hplen]⟩, ?_⟩
      intro q hq
      have hwnP : ¬InP st start w := by
        intro hc
        rcases hc with rfl | hc
        · exact (mem_freshList.mp hwF).2.1 rfl
        · exact hc (mem_freshList.mp hwF).2.2
      have := crossing_bound g start isGoal st hinv hbfs.minDepth dv hfront
        q hq hwnP
      omega
    · have hwold : InP st start w := by
        rcases (inP_bodyState g start v st rest w).mp hw with h | h
        · exact absurd h hwF
        · exact h
      obtain ⟨m, hm⟩ := hinv.chain w hwold
      have hnm : n = m := pchain_uniq _ start hstart' hn
        (pchain_mono _ _ _ hmono hm)
      subst hnm
      exact hbfs.minDepth w n hwold hm

theorem searchMeasure_body (g : AGraph) (start : Nat) (isGoal : Nat → Bool)
    (hcl : g.Closed) (hvnd : g.verts.Nodup) (st : SearchState)
    (hinv : InvCore g start isGoal st) (v : Nat) (rest : List Nat)
    (hadjnd : (g.adj v).Nodup)
    (hshape : st.fringe = v :: rest ∨ st.fringe = rest ++ [v]) :
    searchMeasure g start (bodyState g start v st rest) + 1 =
      searchMeasure g start st := by
  have hvmem : v ∈ st.fringe := by
    rcases hshape with h | h <;> rw [h] <;> simp
  have hvvert : v ∈ g.verts := hinv.fringeVerts v hvmem
  have hFsub : ∀ x ∈ freshList g start v st.parents, x ∈ g.verts :=
    fun x hx => hcl v hvvert x (mem_freshList.mp hx).1
  have hFnd : (freshList g start v st.parents).Nodup := hadjnd.filter _
  have hcount := countP_flip
    (fun z => decide (z ≠ start) && !(lookupKey st.parents z).isSome)
    (fun z => decide (z ≠ start) &&
      !(lookupKey (bodyState g start v st rest).parents z).isSome)
    (freshList g start v st.parents) g.verts (by
      intro x hx
      constructor
      · intro hxF
        obtain ⟨-, hxs, hxl⟩ := mem_freshList.mp hxF
        constructor
        · show (decide (x ≠ start) && !(lookupKey st.parents x).isSome) = true
          rw [hxl]
          simp [hxs]
        · show (decide (x ≠ start) &&
            !(lookupKey (bodyState g start v st rest).parents x).isSome) = false
          rw [bodyState_lookup, if_pos hxF]
          simp
      · intro hxF
        show (decide (x ≠ start) &&
            !(lookupKey (bodyState g start v st rest).parents x).isSome) =
          (decide (x ≠ start) && !(lookupKey st.parents x).isSome)
        rw [bodyState_lookup, if_neg hxF])
  have hflen := filter_mem_length_eq g.verts (freshList g start v st.parents)
    hvnd hFnd hFsub
  have hfrlen : st.fringe.length = rest.length + 1 := by
    rcases hshape with h | h <;> rw [h] <;> simp
  have hbfr : (bodyState g start v st rest).fringe =
      rest ++ freshList g start v st.parents := rfl
  unfold searchMeasure
  rw [hbfr, List.length_append, hfrlen]
  omega

/-! ## The initial state -/

theorem initState_invCore (g : AGraph) (start : Nat) (isGoal : Nat → Bool)
    (hstart : start ∈ g.verts) : InvCore g start isGoal (initState g start) := by
  have hlk : ∀ k : Nat, lookupKey (initState g start).parents k = none :=
    fun _ => rfl
  have hinP : ∀ u, InP (initState g start) start u → u = start := by
    intro u hu
    rcases hu with rfl | hu
    · rfl
    · exact absurd (hlk u) hu
  constructor
  · exact hlk start
  · exact List.nodup_nil
  · intro w u h
    exact absurd h (by rw [hlk]; simp)
  · intro w hw
    rw [hinP w hw]
    exact ⟨0, PChain.zero⟩
  · intro x hx
    have : x = start := by simpa [initState] using hx
    exact Or.inl this
  · exact List.nodup_singleton start
  · intro x hx
    have : x = start := by simpa [initState] using hx
    rw [this]
    exact hstart
  · intro w u h
    exact absurd h (by rw [hlk]; simp)
  · intro u hu
    obtain ⟨huP, hufr⟩ := hu
    rw [hinP u huP] at hufr
    exact absurd (by simp [initState]) hufr
  · intro u hu
    obtain ⟨huP, hufr⟩ := hu
    rw [hinP u huP] at hufr
    exact absurd (by simp [initState]) hufr

theorem initState_invBfs (g : AGraph) (start : Nat) :
    InvBfs g start (initState g start) := by
  have hlk : ∀ k : Nat, lookupKey (initState g start).parents k = none :=
    fun _ => rfl
  constructor
  · refine ⟨[0], ?_, List.pairwise_singleton _ _, by simp⟩
    exact List.Forall₂.cons PChain.zero List.Forall₂.nil
  · intro w n hw hn
    have hws : w = start := by
      rcases hw with rfl | hw
      · rfl
      · exact absurd (hlk w) hw
    subst hws
    have hn0 : n = 0 := by
      cases hn with
      | zero => rfl
      | succ h hp => exact absurd (hlk w) (by rw [h]; simp)
    subst hn0
    refine ⟨⟨[w], ⟨rfl, rfl, List.chain'_singleton w⟩, rfl⟩, ?_⟩
    intro p hp
    obtain ⟨hh, -, -⟩ := hp
    cases p with
    | nil => simp at hh
    | cons a t => simp [List.length_cons]

theorem initState_measure (g : AGraph) (start : Nat) (hstart : start ∈ g.verts) :
    searchMeasure g start (initState g start) < g.verts.length + 1 := by
  have h := countP_lt_of_mem_false g.verts
    (fun z => decide (z ≠ start) && !(lookupKey (initState g start).parents z).isSome)
    start hstart (by simp)
  unfold searchMeasure
  have hfr : (initState g start).fringe.length = 1 := rfl
  rw [hfr]
  omega

/-! ## Unfolding one loop step -/

theorem searchLoop_succ_none (g : AGraph) (disc : Discipline) (start : Nat)
    (isGoal : Nat → Bool) (fuel : Nat) (st : SearchState)
    (hpop : popFringe disc st.fringe = none) :
    searchLoop g disc start isGoal (fuel + 1) st = some (none, st) := by
  show (match popFringe disc st.fringe with
    | none => some (none, st)
    | some (v, rest) =>
      let st1 := emit { st with fringe := rest } [Event.examineVertex v]
      if isGoal v then
        match reverse_path st1.parents v (st1.parents.length + 1) with
        | none => none
        | some p => some (some p, st1)
      else
        searchLoop g disc start isGoal fuel
          (emit (searchInner g start v st1) [Event.finishVertex v])) =
    some (none, st)
  rw [hpop]

theorem searchLoop_succ_pop (g : AGraph) (disc : Discipline) (start : Nat)
    (isGoal : Nat → Bool) (fuel : Nat) (st : SearchState) (v : Nat)
    (rest : List Nat) (hpop : popFringe disc st.fringe = some (v, rest)) :
    searchLoop g disc start isGoal (fuel + 1) st =
      (if isGoal v then
        match reverse_path st.parents v (st.parents.length + 1) with
        | none => none
        | some p =>
          some (some p, emit { st with fringe := rest } [Event.examineVertex v])
      else
        searchLoop g disc start isGoal fuel
          (emit (searchInner g start v
            (emit { st with fringe := rest } [Event.examineVertex v]))
            [Event.finishVertex v])) := by
  show (match popFringe disc st.fringe with
    | none => some (none, st)
    | some (v, rest) =>
      let st1 := emit { st with fringe := rest } [Event.examineVertex v]
      if isGoal v then
        match reverse_path st1.parents v (st1.parents.length + 1) with
        | none => none
        | some p => some (some p, st1)
      else
        searchLoop g disc start isGoal fuel
          (emit (searchInner g start v st1) [Event.finishVertex v])) = _
  rw [hpop]
  rfl

/-! ## The master run theorem -/

/-- What the shared while-loop establishes from the invariants: it never
exhausts adequate fuel, a some result is a valid path to a goal vertex
(shortest under FIFO popping), and a none result refutes reachability. -/
theorem searchLoop_spec (g : AGraph) (disc : Discipline) (start : Nat)
    (isGoal : Nat → Bool) (hcl : g.Closed) (hvnd : g.verts.Nodup)
    (hadjnd : ∀ u, (g.adj u).Nodup) :
    ∀ (fuel : Nat) (st : SearchState), InvCore g start isGoal st →
      (disc = Discipline.fifo → InvBfs g start st) →
      searchMeasure g start st < fuel →
      ∃ res st', searchLoop g disc start isGoal fuel st = some (res, st') ∧
        (∀ p, res = some p → (∃ t, isGoal t = true ∧ IsPath g start t p) ∧
          (disc = Discipline.fifo → ∀ t' p', isGoal t' = true →
            IsPath g start t' p' → p.length ≤ p'.length)) ∧
        (res = none → ¬ReachableGoal g start isGoal) := by
  intro fuel
  induction fuel with
  | zero =>
    intro st _ _ hm
    omega
  | succ fuel ih =>
    intro st hinv hbfs hm
    rcases hpop : popFringe disc st.fringe with - | ⟨v, rest⟩
    · have hfr : st.fringe = [] := popFringe_eq_none.mp hpop
      refine ⟨none, st, searchLoop_succ_none g disc start isGoal fuel st hpop,
        ?_, ?_⟩
      · intro p hp
        exact absurd hp (by simp)
      · intro _ hreach
        obtain ⟨t, p, hgt, hpath⟩ := hreach
        have htP : InP st start t :=
          path_all_inP g start isGoal st hinv hfr p start t hpath (Or.inl rfl)
        have := hinv.nogoal t ⟨htP, by rw [hfr]; simp⟩
        rw [hgt] at this
        exact Bool.noConfusion this
    · have hshape : st.fringe = v :: rest ∨ st.fringe = rest ++ [v] := by
        cases disc
        · exact Or.inl (popFringe_fifo_eq hpop)
        · exact Or.inr (popFringe_lifo_eq hpop)
      have hvfr : v ∈ st.fringe := by
        rcases hshape with h | h <;> rw [h] <;> simp
      have hvP : InP st start v := hinv.fringeP v hvfr
      have hstep := searchLoop_succ_pop g disc start isGoal fuel st v rest hpop
      cases hgb : isGoal v with
      | true =>
        obtain ⟨n, hn⟩ := hinv.chain v hvP
        obtain ⟨p, hrp, hpath, hplen⟩ := pchain_reverse_path g st.parents start
          (fun w u h => (hinv.parentAdj w u h).1) hinv.startKey hn
        refine ⟨some p, emit { st with fringe := rest } [Event.examineVertex v],
          ?_, ?_, ?_⟩
        · rw [hstep, if_pos hgb, hrp]
        · intro q hq
          have hqp : q = p := by
            injection hq with hq
            exact hq.symm
          subst hqp
          refine ⟨⟨v, hgb, hpath⟩, ?_⟩
          intro hdisc t' p' hgt' hp'
          subst hdisc
          obtain ⟨ds, hf2, hpw, h2lv⟩ := (hbfs rfl).depths
          have hfifo : st.fringe = v :: rest := popFringe_fifo_eq hpop
          rw [hfifo] at hf2
          obtain ⟨dv, ds', hdv, hf2', rfl⟩ := List.forall₂_cons_left_iff.mp hf2
          have hndv : n = dv := pchain_uniq st.parents start hinv.startKey hn hdv
          subst hndv
          by_cases ht'P : InP st start t'
          · by_cases ht'f : t' ∈ st.fringe
            · rw [hfifo] at ht'f
              rcases List.mem_cons.mp ht'f with rfl | ht'r
              · have := ((hbfs rfl).minDepth t' n ht'P hdv).2 p' hp'
                omega
              · obtain ⟨dt, hdt, hcht⟩ := forall₂_mem_left hf2' t' ht'r
                have h1 := ((hbfs rfl).minDepth t' dt ht'P hcht).2 p' hp'
                have h2 := (List.pairwise_cons.mp hpw).1 dt hdt
                omega
            · have := hinv.nogoal t' ⟨ht'P, ht'f⟩
              rw [hgt'] at this
              exact Bool.noConfusion this
          · have hfront : ∀ y ∈ st.fringe, ∀ m,
                PChain st.parents start y m → n ≤ m :=
              fringe_front_min g start isGoal st hinv v rest n ds' hfifo
                hdv hf2' hpw
            have := crossing_bound g start isGoal st hinv (hbfs rfl).minDepth
              n hfront p' hp' ht'P
            omega
        · intro hnone
          exact absurd hnone (by simp)
      | false =>
        have hst2 := searchInner_body_eq g start v st rest (hadjnd v)
        have hmeq := searchMeasure_body g start isGoal hcl hvnd st hinv v rest
          (hadjnd v) hshape
        obtain ⟨res, st', heq, h1, h2⟩ := ih (bodyState g start v st rest)
          (invCore_body g start isGoal hcl st hinv v rest (hadjnd v) hshape hgb)
          (fun hdisc => invBfs_body g start isGoal hcl st hinv (hbfs hdisc)
            v rest (hadjnd v) (popFringe_fifo_eq (by rw [← hdisc]; exact hpop))
            hgb)
          (by omega)
        refine ⟨res, st', ?_, h1, h2⟩
        rw [hstep, if_neg (by rw [hgb]; exact Bool.false_ne_true), hst2]
        exact heq

/-! ## The witness graph 0 → 1 -/

theorem wGraph_closed : wGraph.Closed := by
  intro v hv w hw
  have hv01 : v = 0 ∨ v = 1 := by simpa [wGraph] using hv
  rcases hv01 with rfl | rfl
  · have hw1 : w = 1 := by simpa [wGraph] using hw
    simp [wGraph, hw1]
  · simp [wGraph] at hw

theorem wGraph_adjnd : ∀ u, (wGraph.adj u).Nodup := by
  intro u
  by_cases h : u = 0 <;> simp [wGraph, h]

theorem wGraph_reach : ReachableGoal wGraph 0 (fun v => decide (v = 1)) := by
  refine ⟨1, [0, 1], by decide, by decide, by decide, ?_⟩
  rw [List.chain'_cons]
  exact ⟨by decide, List.chain'_singleton 1⟩

/-! ## C4 and C5 -/

/-- C4: for every closed graph with duplicate-free vertex and adjacency
lists, every start vertex of the graph and every goal predicate satisfied
by some vertex reachable from the start, Bfs::run returns a path whose
number of edges is the minimum over all paths from the start to any
goal-satisfying vertex. -/
theorem bfs_shortest_path (g : AGraph) (start : Nat) (isGoal : Nat → Bool)
    (hcl : g.Closed) (hvnd : g.verts.Nodup) (hstart : start ∈ g.verts)
    (hadjnd : ∀ u, (g.adj u).Nodup)
    (hreach : ReachableGoal g start isGoal) :
    ∃ p st, bfsRun g start isGoal = some (some p, st) ∧
      (∃ t, isGoal t = true ∧ IsPath g start t p) ∧
      ∀ t' p', isGoal t' = true → IsPath g start t' p' →
        p.length ≤ p'.length := by
  obtain ⟨res, st', heq, h1, h2⟩ := searchLoop_spec g Discipline.fifo start
    isGoal hcl hvnd hadjnd (g.verts.length + 1) (initState g start)
    (initState_invCore g start isGoal hstart)
    (fun _ => initState_invBfs g start)
    (initState_measure g start hstart)
  cases res with
  | none => exact absurd hreach (h2 rfl)
  | some p =>
    obtain ⟨ht, hmin⟩ := h1 p rfl
    exact ⟨p, st', heq, ht, hmin rfl⟩

theorem bfs_shortest_path_witness :
    wGraph.Closed ∧ wGraph.verts.Nodup ∧ 0 ∈ wGraph.verts ∧
      (∀ u, (wGraph.adj u).Nodup) ∧
      ReachableGoal wGraph 0 (fun v => decide (v = 1)) ∧
      ∃ p st, bfsRun wGraph 0 (fun v => decide (v = 1)) = some (some p, st) ∧
        (∃ t, decide (t = 1) = true ∧ IsPath wGraph 0 t p) ∧
        ∀ t' p', decide (t' = 1) = true → IsPath wGraph 0 t' p' →
          p.length ≤ p'.length :=
  ⟨wGraph_closed, by decide, by decide, wGraph_adjnd, wGraph_reach,
    bfs_shortest_path wGraph 0 (fun v => decide (v = 1)) wGraph_closed
      (by decide) (by decide) wGraph_adjnd wGraph_reach⟩

/-- C5: for every closed graph with duplicate-free vertex and adjacency
lists and every start vertex of the graph, each of Bfs::run and Dfs::run
returns a valid path from the start to a goal-satisfying vertex whenever
it returns a path, and returns absent exactly when no goal-satisfying
vertex is reachable from the start. -/
theorem bfs_dfs_valid_and_complete (g : AGraph) (start : Nat)
    (isGoal : Nat → Bool) (hcl : g.Closed) (hvnd : g.verts.Nodup)
    (hstart : start ∈ g.verts) (hadjnd : ∀ u, (g.adj u).Nodup) :
    RunMatches g start isGoal (bfsRun g start isGoal) ∧
      RunMatches g start isGoal (dfsRun g start isGoal) := by
  have key : ∀ disc : Discipline,
      RunMatches g start isGoal (searchLoop g disc start isGoal
        (g.verts.length + 1) (initState g start)) := by
    intro disc
    obtain ⟨res, st', heq, h1, h2⟩ := searchLoop_spec g disc start isGoal hcl
      hvnd hadjnd (g.verts.length + 1) (initState g start)
      (initState_invCore g start isGoal hstart)
      (fun _ => initState_invBfs g start)
      (initState_measure g start hstart)
    refine ⟨res, st', heq, fun p hp => (h1 p hp).1, ?_, ?_⟩
    · exact h2
    · intro hnr
      cases res with
      | none => rfl
      | some p =>
        obtain ⟨t, hgt, hpath⟩ := (h1 p rfl).1
        exact absurd ⟨t, p, hgt, hpath⟩ hnr
  exact ⟨key Discipline.fifo, key Discipline.lifo⟩

theorem bfs_dfs_valid_and_complete_witness :
    wGraph.Closed ∧ wGraph.verts.Nodup ∧ 0 ∈ wGraph.verts ∧
      (∀ u, (wGraph.adj u).Nodup) ∧
      RunMatches wGraph 0 (fun v => decide (v = 1))
        (bfsRun wGraph 0 (fun v => decide (v = 1))) ∧
      RunMatches wGraph 0 (fun v => decide (v = 1))
        (dfsRun wGraph 0 (fun v => decide (v = 1))) := by
  have h := bfs_dfs_valid_and_complete wGraph 0 (fun v => decide (v = 1))
    wGraph_closed (by decide) (by decide) wGraph_adjnd
  exact ⟨wGraph_closed, by decide, by decide, wGraph_adjnd, h.1, h.2⟩

end GraphRs
